import Mathlib

/-
  Verification development for `monailabel/transform/pre.py`.

  The Python module defines three dictionary transforms:
    * `LoadImageTensord.__call__`  (ImageOrTensorLoader)
    * `LoadImageExd.__call__`      (ExtendedFileLoader, extending LoadImaged)
    * `NormalizeLabeld.__call__`   (LabelBinarizer)

  We embed the data model shallowly: a Python data record is an association
  list from string keys to values; mutable objects (numpy arrays and the data
  dictionaries themselves) live in an explicit heap so that sharing and
  in-place mutation are observable.  External collaborators (PIL/numpy image
  decoding, the caller-supplied default loader `load_image_d`, and the
  inherited `LoadImaged.__call__`) are parameters of the embedded functions.
-/

namespace MonaiPre

/-- A numpy `ndarray`: its shape tuple and its (flattened) integer elements. -/
structure NDArray where
  shape : List Nat
  data : List Int
  deriving Repr, DecidableEq

/-- A value stored in a metadata dictionary
(`spatial_shape`, `original_channel_dim`, `original_affine`, ...). -/
inductive MetaVal where
  | shape : List Nat → MetaVal
  | int : Int → MetaVal
  | null : MetaVal
  deriving Repr, DecidableEq

/-- A metadata dictionary: insertion-ordered association list. -/
abbrev MetaMap := List (String × MetaVal)

/-- A Python value that can appear in a data record:
a file-path string, a reference to an `ndarray` object in the heap,
a `MetaTensor` (wrapping an array reference together with its metadata),
or a plain metadata dictionary. -/
inductive PyVal where
  | str : String → PyVal
  | arrRef : Nat → PyVal
  | mtensor : Nat → MetaMap → PyVal
  | mdict : MetaMap → PyVal
  deriving Repr, DecidableEq

/-- A data record: insertion-ordered association list from keys to values. -/
abbrev DataMap := List (String × PyVal)

/-- The heap of mutable objects: numpy arrays and data dictionaries,
addressed by their index in the respective store. -/
structure Heap where
  arrays : List NDArray
  ddicts : List DataMap
  deriving Repr, DecidableEq

/-- Python errors that the transforms can raise. -/
inductive PyErr where
  | keyError : String → PyErr
  | typeError : String → PyErr
  | ioError : String → PyErr
  | attributeError : String → PyErr
  | indexError : String → PyErr
  deriving Repr, DecidableEq

/-- Dictionary lookup `d[k]` on an association list (first match wins). -/
def lookupKey {α : Type} (k : String) : List (String × α) → Option α
  | [] => none
  | (k', v) :: rest => if k' = k then some v else lookupKey k rest

/-- Dictionary assignment `d[k] = v`: replace the first binding of `k`,
or append a new binding (Python dicts preserve insertion order). -/
def setKey {α : Type} (k : String) (v : α) : List (String × α) → List (String × α)
  | [] => [(k, v)]
  | (k', v') :: rest => if k' = k then (k, v) :: rest else (k', v') :: setKey k v rest

/-- `d.setdefault(mk, {})` specialised to metadata dictionaries: if `mk` is
absent, bind it to a fresh empty dict and return that dict; if present and a
dict, return it; if present but not a dict, `setdefault` itself succeeds but
the subsequent item assignment will raise, signalled here by `none`. -/
def pySetdefaultMeta (d : DataMap) (mk : String) : DataMap × Option MetaMap :=
  match lookupKey mk d with
  | none => (setKey mk (PyVal.mdict []) d, some [])
  | some (PyVal.mdict mm) => (d, some mm)
  | some _ => (d, none)

/-- `PostFix.meta()`, the default metadata-key suffix. -/
def metaDictSuffix : String := "meta_dict"

/-- The three metadata assignments shared by both loaders:
`meta_dict["spatial_shape"] = <spatial shape>`,
`meta_dict["original_channel_dim"] = -1`,
`meta_dict["original_affine"] = None`. -/
def populateMeta (mm : MetaMap) (spatialShape : List Nat) : MetaMap :=
  setKey "original_affine" MetaVal.null
    (setKey "original_channel_dim" (MetaVal.int (-1))
      (setKey "spatial_shape" (MetaVal.shape spatialShape) mm))

/-- `v.shape` for a record value: arrays and MetaTensors have a shape,
strings and dicts raise `AttributeError`. -/
def valShape (arrays : List NDArray) : PyVal → Except PyErr (List Nat)
  | PyVal.arrRef a =>
    match arrays[a]? with
    | some arr => Except.ok arr.shape
    | none => Except.error (PyErr.typeError "dangling array reference")
  | PyVal.mtensor a _ =>
    match arrays[a]? with
    | some arr => Except.ok arr.shape
    | none => Except.error (PyErr.typeError "dangling array reference")
  | PyVal.str _ => Except.error (PyErr.attributeError "str has no attribute shape")
  | PyVal.mdict _ => Except.error (PyErr.attributeError "dict has no attribute shape")

/-- The heap address of the array underlying a record value, when it has one
(`ndarray` itself, or the data tensor inside a `MetaTensor`). -/
def valArrAddr : PyVal → Option Nat
  | PyVal.arrRef a => some a
  | PyVal.mtensor a _ => some a
  | _ => none

/-- `isinstance(v, str)`. -/
def isStr : PyVal → Bool
  | PyVal.str _ => true
  | _ => false

/-- `isinstance(v, np.ndarray)` (a `MetaTensor` is a torch tensor, not an
`ndarray`, so only direct array references qualify). -/
def isNdarray : PyVal → Bool
  | PyVal.arrRef _ => true
  | _ => false

/-- Allocate a fresh data dictionary in the heap (`d = dict(data)` makes a
shallow copy with the same bindings). -/
def Heap.allocDDict (h : Heap) (m : DataMap) : Heap × Nat :=
  ({ h with ddicts := h.ddicts ++ [m] }, h.ddicts.length)

/-- The per-key loop of `LoadImageTensord.__call__`:
for each key, if `d[key]` is a string, decode it with
`np.asarray(Image.open(d[key]))` (the result is bound to the local
`image_np`, which the loop never stores); otherwise build the metadata
entry via `d.setdefault`, populate it, wrap `d[key]` as a `MetaTensor`,
and clear the `use_default` flag. -/
def tensordLoop (decodeImage : String → Except PyErr NDArray) (arrays : List NDArray) :
    List String → DataMap → Bool → Except PyErr (DataMap × Bool)
  | [], d, useDefault => Except.ok (d, useDefault)
  | key :: rest, d, useDefault =>
    match lookupKey key d with
    | none => Except.error (PyErr.keyError key)
    | some (PyVal.str s) =>
      match decodeImage s with
      | Except.ok _ => tensordLoop decodeImage arrays rest d useDefault
      | Except.error e => Except.error e
    | some v =>
      let mk := key ++ "_" ++ metaDictSuffix
      let dm := pySetdefaultMeta d mk
      match valShape arrays v with
      | Except.error e => Except.error e
      | Except.ok shape =>
        match dm.2 with
        | none => Except.error (PyErr.typeError mk)
        | some mm0 =>
          let mm := populateMeta mm0 shape.dropLast
          let d2 := setKey mk (PyVal.mdict mm) dm.1
          match valArrAddr v with
          | none => Except.error (PyErr.attributeError key)
          | some a =>
            tensordLoop decodeImage arrays rest (setKey key (PyVal.mtensor a mm) d2) false

/-- `LoadImageTensord.__call__`: copy the record, run the per-key loop, and
if no key was handled directly call `self.load_image_d` on the copy.
`allowMissing` is `allow_missing_keys`, stored by `MapTransform.__init__`
but never consulted by this `__call__`. -/
def loadImageTensord (keys : List String) (allowMissing : Bool)
    (loadImageD : Heap → Nat → Except PyErr (Heap × Nat))
    (decodeImage : String → Except PyErr NDArray)
    (h : Heap) (dataAddr : Nat) : Except PyErr (Heap × Nat) :=
  match h.ddicts[dataAddr]? with
  | none => Except.error (PyErr.typeError "data is not a dict")
  | some m =>
    let hd := h.allocDDict m
    match tensordLoop decodeImage hd.1.arrays keys m true with
    | Except.error e => Except.error e
    | Except.ok (d, useDefault) =>
      let h2 : Heap := { hd.1 with ddicts := hd.1.ddicts.set hd.2 d }
      if useDefault then loadImageD h2 hd.2
      else Except.ok (h2, hd.2)

/-- The per-key loop of `LoadImageExd.__call__`: for each key (with its
aligned entry of `self.meta_key_postfix`), if `d[key]` is an `np.ndarray`,
set the `direct_image` flag and convert the key exactly as in
`LoadImageTensord`; any other value is left untouched. -/
def exdLoop (arrays : List NDArray) :
    List String → List String → DataMap → Bool → Except PyErr (DataMap × Bool)
  | [], _, d, direct => Except.ok (d, direct)
  | key :: rest, sfx, d, direct =>
    match lookupKey key d with
    | none => Except.error (PyErr.keyError key)
    | some (PyVal.arrRef a) =>
      match sfx.head? with
      | none => Except.error (PyErr.indexError key)
      | some pf =>
        let mk := key ++ "_" ++ pf
        let dm := pySetdefaultMeta d mk
        match arrays[a]? with
        | none => Except.error (PyErr.typeError "dangling array reference")
        | some arr =>
          match dm.2 with
          | none => Except.error (PyErr.typeError mk)
          | some mm0 =>
            let mm := populateMeta mm0 arr.shape.dropLast
            let d2 := setKey mk (PyVal.mdict mm) dm.1
            exdLoop arrays rest sfx.tail (setKey key (PyVal.mtensor a mm) d2) true
    | some _ => exdLoop arrays rest sfx.tail d direct

/-- `LoadImageExd.__call__`: copy the record, run the per-key loop, and if
no key held a direct array delegate to the inherited
`LoadImaged.__call__(d, reader)`, modelled by the parameter `superCall`. -/
def loadImageExd {R : Type} (keys metaSuffixes : List String)
    (superCall : Heap → Nat → Option R → Except PyErr (Heap × Nat))
    (h : Heap) (dataAddr : Nat) (reader : Option R) : Except PyErr (Heap × Nat) :=
  match h.ddicts[dataAddr]? with
  | none => Except.error (PyErr.typeError "data is not a dict")
  | some m =>
    let hd := h.allocDDict m
    match exdLoop hd.1.arrays keys metaSuffixes m false with
    | Except.error e => Except.error e
    | Except.ok (d, direct) =>
      let h2 : Heap := { hd.1 with ddicts := hd.1.ddicts.set hd.2 d }
      if direct then Except.ok (h2, hd.2)
      else superCall h2 hd.2 reader

/-- One element of `label[label > 0] = self.value`: elements strictly
greater than zero become `value`, all others are unchanged. -/
def normalizeVal (value x : Int) : Int := if x > 0 then value else x

/-- The in-place effect of `label[label > 0] = self.value` on a whole array. -/
def mapArr (value : Int) (arr : NDArray) : NDArray :=
  { shape := arr.shape, data := arr.data.map (normalizeVal value) }

/-- The per-key loop of `NormalizeLabeld.__call__`:
`label = d[key]` (KeyError if absent), `label[label > 0] = self.value`
(mutating the shared array object in the heap; TypeError when the value has
no underlying array), `d[key] = label` (rebinding the same object). -/
def normalizeLoop (value : Int) :
    List String → List NDArray → DataMap → Except PyErr (List NDArray × DataMap)
  | [], arrays, d => Except.ok (arrays, d)
  | key :: rest, arrays, d =>
    match lookupKey key d with
    | none => Except.error (PyErr.keyError key)
    | some label =>
      match valArrAddr label with
      | none => Except.error (PyErr.typeError key)
      | some a =>
        match arrays[a]? with
        | none => Except.error (PyErr.typeError "dangling array reference")
        | some arr =>
          normalizeLoop value rest (arrays.set a (mapArr value arr)) (setKey key label d)

/-- `NormalizeLabeld.__call__`: copy the record, binarize each listed label
array in place, and return the copy.  `allowMissing` is stored by
`MapTransform.__init__` but never consulted by this `__call__`. -/
def normalizeLabeld (keys : List String) (allowMissing : Bool) (value : Int)
    (h : Heap) (dataAddr : Nat) : Except PyErr (Heap × Nat) :=
  match h.ddicts[dataAddr]? with
  | none => Except.error (PyErr.typeError "data is not a dict")
  | some m =>
    let hd := h.allocDDict m
    match normalizeLoop value keys hd.1.arrays m with
    | Except.error e => Except.error e
    | Except.ok (arrays2, d) =>
      Except.ok ({ arrays := arrays2, ddicts := hd.1.ddicts.set hd.2 d }, hd.2)

/-! ### Basic lemmas about association lists and list stores -/

theorem lookupKey_setKey_self {α : Type} (k : String) (v : α) (d : List (String × α)) :
    lookupKey k (setKey k v d) = some v := by
  induction d with
  | nil => simp [setKey, lookupKey]
  | cons p rest ih =>
    by_cases hk : p.1 = k
    · simp [setKey, hk, lookupKey]
    · simp [setKey, hk, lookupKey, ih]

theorem lookupKey_setKey_ne {α : Type} {k' k : String} (hk : k' ≠ k) (v : α)
    (d : List (String × α)) : lookupKey k (setKey k' v d) = lookupKey k d := by
  induction d with
  | nil => simp [setKey, lookupKey, hk]
  | cons p rest ih =>
    by_cases hp : p.1 = k'
    · simp [setKey, hp, lookupKey, hk]
    · by_cases hq : p.1 = k
      · simp [setKey, hp, lookupKey, hq, Ne.symm hk]
      · simp [setKey, hp, lookupKey, hq, ih]

theorem setKey_eq_of_lookup {α : Type} {k : String} {v : α} {d : List (String × α)}
    (h : lookupKey k d = some v) : setKey k v d = d := by
  induction d with
  | nil => simp [lookupKey] at h
  | cons p rest ih =>
    by_cases hp : p.1 = k
    · simp [lookupKey, hp] at h
      cases p
      simp_all [setKey]
    · simp [lookupKey, hp] at h
      simp [setKey, hp, ih h]

theorem list_set_concat_length {α : Type} (l : List α) (x y : α) :
    (l ++ [x]).set l.length y = l ++ [y] := by
  induction l with
  | nil => simp
  | cons a t ih => simp [ih]

theorem list_getElem?_set_self {α : Type} {l : List α} {i : Nat} {x : α} (y : α)
    (h : l[i]? = some x) : (l.set i y)[i]? = some y := by
  have hl : i < l.length := by
    rcases List.getElem?_eq_some.1 h with ⟨hl, _⟩; exact hl
  simp [List.getElem?_set_self, hl]

theorem list_set_eq_of_getElem? {α : Type} {l : List α} {i : Nat} {x : α}
    (h : l[i]? = some x) : l.set i x = l := by
  induction l generalizing i with
  | nil => simp at h
  | cons a t ih =>
    cases i with
    | zero => simp_all
    | succ n =>
      simp only [List.getElem?_cons_succ] at h
      simp [List.set, ih h]

theorem string_append_right_cancel {a b s : String} (h : a ++ s = b ++ s) : a = b := by
  have hd : (a ++ s).data = (b ++ s).data := by rw [h]
  simp only [String.data_append] at hd
  exact String.ext (List.append_cancel_right hd)

/-! ### Lemmas about the metadata helpers -/

theorem populateMeta_spatial (mm : MetaMap) (ss : List Nat) :
    lookupKey "spatial_shape" (populateMeta mm ss) = some (MetaVal.shape ss) := by
  unfold populateMeta
  rw [lookupKey_setKey_ne (by decide), lookupKey_setKey_ne (by decide),
    lookupKey_setKey_self]

theorem populateMeta_channel (mm : MetaMap) (ss : List Nat) :
    lookupKey "original_channel_dim" (populateMeta mm ss) = some (MetaVal.int (-1)) := by
  unfold populateMeta
  rw [lookupKey_setKey_ne (by decide), lookupKey_setKey_self]

theorem populateMeta_affine (mm : MetaMap) (ss : List Nat) :
    lookupKey "original_affine" (populateMeta mm ss) = some MetaVal.null := by
  unfold populateMeta
  rw [lookupKey_setKey_self]

theorem populateMeta_other {f : String} (mm : MetaMap) (ss : List Nat)
    (h1 : f ≠ "spatial_shape") (h2 : f ≠ "original_channel_dim")
    (h3 : f ≠ "original_affine") :
    lookupKey f (populateMeta mm ss) = lookupKey f mm := by
  unfold populateMeta
  rw [lookupKey_setKey_ne (fun he => h3 he.symm),
    lookupKey_setKey_ne (fun he => h2 he.symm),
    lookupKey_setKey_ne (fun he => h1 he.symm)]

theorem pySetdefaultMeta_lookup_ne {d : DataMap} {mk x : String} (hx : x ≠ mk) :
    lookupKey x (pySetdefaultMeta d mk).1 = lookupKey x d := by
  unfold pySetdefaultMeta
  match hm : lookupKey mk d with
  | none => simp [lookupKey_setKey_ne (fun he => hx he.symm)]
  | some (PyVal.mdict mm) => simp
  | some (PyVal.str s) => simp
  | some (PyVal.arrRef a) => simp
  | some (PyVal.mtensor a m) => simp

/-! ### Lemmas about the `LoadImageTensord` per-key loop -/

theorem lookup_after_convert {x key mk : String} {a : Nat} {mmA mmB : MetaMap}
    {d : DataMap} (hkey : key ≠ x) (hmk : mk ≠ x) :
    lookupKey x (setKey key (PyVal.mtensor a mmA)
      (setKey mk (PyVal.mdict mmB) (pySetdefaultMeta d mk).1)) = lookupKey x d := by
  rw [lookupKey_setKey_ne hkey, lookupKey_setKey_ne hmk,
    pySetdefaultMeta_lookup_ne (fun he => hmk he.symm)]

theorem tensordLoop_frame {dec : String → Except PyErr NDArray} {arrays : List NDArray} :
    ∀ (ks : List String) (d : DataMap) (u : Bool) (d2 : DataMap) (u2 : Bool) (x : String),
    x ∉ ks → (∀ k' ∈ ks, k' ++ "_" ++ metaDictSuffix ≠ x) →
    tensordLoop dec arrays ks d u = Except.ok (d2, u2) →
    lookupKey x d2 = lookupKey x d := by
  intro ks
  induction ks with
  | nil =>
    intro d u d2 u2 x _ _ h
    simp only [tensordLoop] at h
    cases h
    rfl
  | cons key rest ih =>
    intro d u d2 u2 x hx hmk h
    have hkey : key ≠ x := fun he => hx (he ▸ List.mem_cons_self key rest)
    have hxrest : x ∉ rest := fun hr => hx (List.mem_cons_of_mem key hr)
    have hmkrest : ∀ k' ∈ rest, k' ++ "_" ++ metaDictSuffix ≠ x :=
      fun k' hk' => hmk k' (List.mem_cons_of_mem key hk')
    have hmkkey : key ++ "_" ++ metaDictSuffix ≠ x := hmk key (List.mem_cons_self key rest)
    simp only [tensordLoop] at h
    split at h
    · cases h
    · split at h
      · exact ih d u d2 u2 x hxrest hmkrest h
      · cases h
    all_goals
      split at h
      · cases h
      · split at h
        · cases h
        · split at h
          · cases h
          · rw [ih _ _ _ _ _ hxrest hmkrest h, lookup_after_convert hkey hmkkey]

theorem tensordLoop_false_mono {dec : String → Except PyErr NDArray}
    {arrays : List NDArray} :
    ∀ (ks : List String) (d : DataMap) (d2 : DataMap) (u2 : Bool),
    tensordLoop dec arrays ks d false = Except.ok (d2, u2) → u2 = false := by
  intro ks
  induction ks with
  | nil =>
    intro d d2 u2 h
    simp only [tensordLoop] at h
    cases h
    rfl
  | cons key rest ih =>
    intro d d2 u2 h
    simp only [tensordLoop] at h
    split at h
    · cases h
    · split at h
      · exact ih _ _ _ h
      · cases h
    all_goals
      split at h
      · cases h
      · split at h
        · cases h
        · split at h
          · cases h
          · exact ih _ _ _ h

theorem tensordLoop_all_str {dec : String → Except PyErr NDArray}
    {arrays : List NDArray} :
    ∀ (ks : List String) (d : DataMap) (u : Bool),
    (∀ k ∈ ks, ∃ s, lookupKey k d = some (PyVal.str s) ∧ ∃ arr, dec s = Except.ok arr) →
    tensordLoop dec arrays ks d u = Except.ok (d, u) := by
  intro ks
  induction ks with
  | nil => intro d u _; simp [tensordLoop]
  | cons key rest ih =>
    intro d u hstr
    obtain ⟨s, hs, arr, harr⟩ := hstr key (List.mem_cons_self key rest)
    simp only [tensordLoop, hs, harr]
    exact ih d u (fun k hk => hstr k (List.mem_cons_of_mem key hk))

theorem tensordLoop_nonstring_no_default {dec : String → Except PyErr NDArray}
    {arrays : List NDArray} :
    ∀ (ks : List String) (d : DataMap) (u : Bool) (d2 : DataMap) (u2 : Bool) (x : String),
    x ∈ ks → (∀ v, lookupKey x d = some v → isStr v = false) →
    (∃ v, lookupKey x d = some v) →
    tensordLoop dec arrays ks d u = Except.ok (d2, u2) → u2 = false := by
  intro ks
  induction ks with
  | nil => intro d u d2 u2 x hx; cases hx
  | cons key rest ih =>
    intro d u d2 u2 x hx hnonstr hsome h
    simp only [tensordLoop] at h
    by_cases hkx : key = x
    · subst hkx
      obtain ⟨v, hv⟩ := hsome
      rw [hv] at h
      cases v with
      | str s => exact absurd (hnonstr _ hv) (by simp [isStr])
      | arrRef a =>
        simp only at h
        split at h
        · cases h
        · split at h
          · cases h
          · split at h
            · cases h
            · exact tensordLoop_false_mono _ _ _ _ h
      | mtensor a mm =>
        simp only at h
        split at h
        · cases h
        · split at h
          · cases h
          · split at h
            · cases h
            · exact tensordLoop_false_mono _ _ _ _ h
      | mdict mm =>
        simp only at h
        split at h
        · cases h
        · split at h
          · cases h
          · split at h
            · cases h
            · exact tensordLoop_false_mono _ _ _ _ h
    · have hxrest : x ∈ rest := by
        cases List.mem_cons.1 hx with
        | inl he => exact absurd he.symm hkx
        | inr hr => exact hr
      split at h
      · cases h
      · split at h
        · exact ih _ _ _ _ _ hxrest hnonstr hsome h
        · cases h
      all_goals
        split at h
        · cases h
        · split at h
          · cases h
          · split at h
            · cases h
            · refine ih _ _ _ _ _ hxrest ?_ ?_ h
              all_goals
                by_cases hmx : (key ++ "_" ++ metaDictSuffix) = x
                case pos =>
                  rw [lookupKey_setKey_ne (fun he => hkx he), hmx,
                    lookupKey_setKey_self]
                  first
                  | intro w hw; cases hw; rfl
                  | exact ⟨_, rfl⟩
                case neg =>
                  rw [lookup_after_convert (fun he => hkx he) hmx]
                  first
                  | exact fun w hw => hnonstr w hw
                  | exact hsome

theorem metaKey_len (s : String) :
    (s ++ "_" ++ metaDictSuffix).length = s.length + 10 := by
  have h1 : ("_" : String).length = 1 := by decide
  have h2 : metaDictSuffix.length = 9 := by decide
  simp [String.length_append, h1, h2]

theorem ne_metaKey_self (s : String) : s ++ "_" ++ metaDictSuffix ≠ s := by
  intro h
  have := congrArg String.length h
  rw [metaKey_len] at this
  omega

theorem metaKey_inj {a b : String}
    (h : a ++ "_" ++ metaDictSuffix = b ++ "_" ++ metaDictSuffix) : a = b :=
  string_append_right_cancel (string_append_right_cancel h)

theorem tensordLoop_array_key {dec : String → Except PyErr NDArray}
    {arrays : List NDArray} :
    ∀ (ks : List String) (d : DataMap) (u : Bool) (d2 : DataMap) (u2 : Bool)
      (x : String) (a : Nat) (arr : NDArray),
    x ∈ ks → ks.Nodup → (∀ k' ∈ ks, k' ++ "_" ++ metaDictSuffix ≠ x) →
    lookupKey x d = some (PyVal.arrRef a) → arrays[a]? = some arr →
    tensordLoop dec arrays ks d u = Except.ok (d2, u2) →
    ∃ mm, lookupKey x d2 = some (PyVal.mtensor a mm) ∧
      lookupKey "spatial_shape" mm = some (MetaVal.shape arr.shape.dropLast) ∧
      lookupKey "original_channel_dim" mm = some (MetaVal.int (-1)) ∧
      lookupKey "original_affine" mm = some MetaVal.null := by
  intro ks
  induction ks with
  | nil => intro d u d2 u2 x a arr hx; cases hx
  | cons key rest ih =>
    intro d u d2 u2 x a arr hx hnd hmk hv ha h
    have hmkrest : ∀ k' ∈ rest, k' ++ "_" ++ metaDictSuffix ≠ x :=
      fun k' hk' => hmk k' (List.mem_cons_of_mem key hk')
    by_cases hkx : key = x
    · subst hkx
      have hxrest : key ∉ rest := (List.nodup_cons.1 hnd).1
      simp only [tensordLoop, hv, valShape, ha, valArrAddr] at h
      split at h
      · cases h
      · rename_i mm0 hmm0
        refine ⟨populateMeta mm0 arr.shape.dropLast, ?_,
          populateMeta_spatial _ _, populateMeta_channel _ _, populateMeta_affine _ _⟩
        rw [tensordLoop_frame rest _ false d2 u2 key hxrest hmkrest h,
          lookupKey_setKey_self]
    · have hxrest : x ∈ rest := by
        cases List.mem_cons.1 hx with
        | inl he => exact absurd he.symm hkx
        | inr hr => exact hr
      have hndrest : rest.Nodup := (List.nodup_cons.1 hnd).2
      simp only [tensordLoop] at h
      split at h
      · cases h
      · split at h
        · exact ih _ _ _ _ _ _ _ hxrest hndrest hmkrest hv ha h
        · cases h
      all_goals
        split at h
        · cases h
        · split at h
          · cases h
          · split at h
            · cases h
            · refine ih _ _ _ _ _ _ _ hxrest hndrest hmkrest ?_ ha h
              rw [lookup_after_convert (fun he => hkx he)
                (hmk key (List.mem_cons_self key rest))]
              exact hv

theorem tensordLoop_str_key {dec : String → Except PyErr NDArray}
    {arrays : List NDArray} :
    ∀ (ks : List String) (d : DataMap) (u : Bool) (d2 : DataMap) (u2 : Bool)
      (x s : String),
    (∀ k' ∈ ks, k' ++ "_" ++ metaDictSuffix ≠ x) →
    lookupKey x d = some (PyVal.str s) →
    tensordLoop dec arrays ks d u = Except.ok (d2, u2) →
    lookupKey x d2 = some (PyVal.str s) := by
  intro ks
  induction ks with
  | nil =>
    intro d u d2 u2 x s _ hv h
    simp only [tensordLoop] at h
    cases h
    exact hv
  | cons key rest ih =>
    intro d u d2 u2 x s hmk hv h
    have hmkrest : ∀ k' ∈ rest, k' ++ "_" ++ metaDictSuffix ≠ x :=
      fun k' hk' => hmk k' (List.mem_cons_of_mem key hk')
    by_cases hkx : key = x
    · subst hkx
      simp only [tensordLoop, hv] at h
      split at h
      · exact ih _ _ _ _ _ _ hmkrest hv h
      · cases h
    · simp only [tensordLoop] at h
      split at h
      · cases h
      · split at h
        · exact ih _ _ _ _ _ _ hmkrest hv h
        · cases h
      all_goals
        split at h
        · cases h
        · split at h
          · cases h
          · split at h
            · cases h
            · refine ih _ _ _ _ _ _ hmkrest ?_ h
              rw [lookup_after_convert (fun he => hkx he)
                (hmk key (List.mem_cons_self key rest))]
              exact hv

theorem tensordLoop_meta_key {dec : String → Except PyErr NDArray}
    {arrays : List NDArray} :
    ∀ (ks : List String) (d : DataMap) (u : Bool) (d2 : DataMap) (u2 : Bool)
      (x : String) (a : Nat) (arr : NDArray),
    x ∈ ks → ks.Nodup → (x ++ "_" ++ metaDictSuffix) ∉ ks →
    (∀ k' ∈ ks, k' ++ "_" ++ metaDictSuffix ≠ x) →
    lookupKey x d = some (PyVal.arrRef a) → arrays[a]? = some arr →
    tensordLoop dec arrays ks d u = Except.ok (d2, u2) →
    ∃ mm, lookupKey (x ++ "_" ++ metaDictSuffix) d2 = some (PyVal.mdict mm) ∧
      lookupKey "spatial_shape" mm = some (MetaVal.shape arr.shape.dropLast) ∧
      lookupKey "original_channel_dim" mm = some (MetaVal.int (-1)) ∧
      lookupKey "original_affine" mm = some MetaVal.null ∧
      (lookupKey (x ++ "_" ++ metaDictSuffix) d = none →
        ∀ f : String, f ≠ "spatial_shape" → f ≠ "original_channel_dim" →
          f ≠ "original_affine" → lookupKey f mm = none) ∧
      (∀ mm0, lookupKey (x ++ "_" ++ metaDictSuffix) d = some (PyVal.mdict mm0) →
        ∀ f : String, f ≠ "spatial_shape" → f ≠ "original_channel_dim" →
          f ≠ "original_affine" → lookupKey f mm = lookupKey f mm0) := by
  intro ks
  induction ks with
  | nil => intro d u d2 u2 x a arr hx; cases hx
  | cons key rest ih =>
    intro d u d2 u2 x a arr hx hnd hmkx hmk hv ha h
    have hmkrest : ∀ k' ∈ rest, k' ++ "_" ++ metaDictSuffix ≠ x :=
      fun k' hk' => hmk k' (List.mem_cons_of_mem key hk')
    have hmkxrest : (x ++ "_" ++ metaDictSuffix) ∉ rest :=
      fun hr => hmkx (List.mem_cons_of_mem key hr)
    have hndrest : rest.Nodup := (List.nodup_cons.1 hnd).2
    by_cases hkx : key = x
    · subst hkx
      have hxrest : key ∉ rest := (List.nodup_cons.1 hnd).1
      have hclash : ∀ k' ∈ rest,
          k' ++ "_" ++ metaDictSuffix ≠ key ++ "_" ++ metaDictSuffix :=
        fun k' hk' he => hxrest (metaKey_inj he ▸ hk')
      simp only [tensordLoop, hv, valShape, ha, valArrAddr] at h
      cases hmv : lookupKey (key ++ "_" ++ metaDictSuffix) d with
      | none =>
        simp only [pySetdefaultMeta, hmv] at h
        refine ⟨populateMeta [] arr.shape.dropLast, ?_, populateMeta_spatial _ _,
          populateMeta_channel _ _, populateMeta_affine _ _, ?_, ?_⟩
        · rw [tensordLoop_frame rest _ false d2 u2 _ hmkxrest hclash h,
            lookupKey_setKey_ne (Ne.symm (ne_metaKey_self key)),
            lookupKey_setKey_self]
        · intro _ f hf1 hf2 hf3
          rw [populateMeta_other _ _ hf1 hf2 hf3]
          rfl
        · intro mm0 hm0
          simp [hmv] at hm0
      | some v =>
        cases v with
        | str s => simp only [pySetdefaultMeta, hmv] at h; cases h
        | arrRef n => simp only [pySetdefaultMeta, hmv] at h; cases h
        | mtensor n mmq => simp only [pySetdefaultMeta, hmv] at h; cases h
        | mdict mm0 =>
          simp only [pySetdefaultMeta, hmv] at h
          refine ⟨populateMeta mm0 arr.shape.dropLast, ?_, populateMeta_spatial _ _,
            populateMeta_channel _ _, populateMeta_affine _ _, ?_, ?_⟩
          · rw [tensordLoop_frame rest _ false d2 u2 _ hmkxrest hclash h,
              lookupKey_setKey_ne (Ne.symm (ne_metaKey_self key)),
              lookupKey_setKey_self]
          · intro hn
            simp [hmv] at hn
          · intro mm0' hm0 f hf1 hf2 hf3
            have hmm : mm0 = mm0' := by simpa using hm0
            rw [populateMeta_other _ _ hf1 hf2 hf3, hmm]
    · have hxrest : x ∈ rest := by
        cases List.mem_cons.1 hx with
        | inl he => exact absurd he.symm hkx
        | inr hr => exact hr
      have hkne : key ≠ x := fun he => hkx he
      have hmkne : key ++ "_" ++ metaDictSuffix ≠ x :=
        hmk key (List.mem_cons_self key rest)
      have hkne2 : key ≠ x ++ "_" ++ metaDictSuffix :=
        fun he => hmkx (he ▸ List.mem_cons_self key rest)
      have hmkne2 : key ++ "_" ++ metaDictSuffix ≠ x ++ "_" ++ metaDictSuffix :=
        fun he => hkx (metaKey_inj he)
      simp only [tensordLoop] at h
      split at h
      · cases h
      · split at h
        · exact ih _ _ _ _ _ _ _ hxrest hndrest hmkxrest hmkrest hv ha h
        · cases h
      all_goals
        split at h
        · cases h
        · split at h
          · cases h
          · split at h
            · cases h
            · obtain ⟨mm, h1, h2, h3, h4, h5, h6⟩ :=
                ih _ _ _ _ _ _ _ hxrest hndrest hmkxrest hmkrest
                  (by rw [lookup_after_convert hkne hmkne]; exact hv) ha h
              refine ⟨mm, h1, h2, h3, h4, ?_, ?_⟩
              · intro hn f hf1 hf2 hf3
                refine h5 ?_ f hf1 hf2 hf3
                rw [lookup_after_convert hkne2 hmkne2]
                exact hn
              · intro mm0 hm0 f hf1 hf2 hf3
                refine h6 mm0 ?_ f hf1 hf2 hf3
                rw [lookup_after_convert hkne2 hmkne2]
                exact hm0

/-! ### Lemmas about the `LoadImageExd` per-key loop -/

theorem exdLoop_frame {arrays : List NDArray} :
    ∀ (ks sfx : List String) (d : DataMap) (dir : Bool) (d2 : DataMap) (dir2 : Bool)
      (x : String),
    x ∉ ks → (∀ pf ∈ sfx, pf = metaDictSuffix) →
    (∀ k' ∈ ks, k' ++ "_" ++ metaDictSuffix ≠ x) →
    exdLoop arrays ks sfx d dir = Except.ok (d2, dir2) →
    lookupKey x d2 = lookupKey x d := by
  intro ks
  induction ks with
  | nil =>
    intro sfx d dir d2 dir2 x _ _ _ h
    simp only [exdLoop] at h
    cases h
    rfl
  | cons key rest ih =>
    intro sfx d dir d2 dir2 x hx huni hmk h
    have hkey : key ≠ x := fun he => hx (he ▸ List.mem_cons_self key rest)
    have hxrest : x ∉ rest := fun hr => hx (List.mem_cons_of_mem key hr)
    have hmkrest : ∀ k' ∈ rest, k' ++ "_" ++ metaDictSuffix ≠ x :=
      fun k' hk' => hmk k' (List.mem_cons_of_mem key hk')
    have hmkkey : key ++ "_" ++ metaDictSuffix ≠ x := hmk key (List.mem_cons_self key rest)
    cases sfx with
    | nil =>
      simp only [exdLoop, List.head?_nil, List.tail_nil] at h
      split at h
      · cases h
      · cases h
      · exact ih [] d dir d2 dir2 x hxrest (by intro pf hpf; cases hpf) hmkrest h
    | cons pf sfxRest =>
      have hpf : pf = metaDictSuffix := huni pf (List.mem_cons_self pf sfxRest)
      subst hpf
      have hunirest : ∀ q ∈ sfxRest, q = metaDictSuffix :=
        fun q hq => huni q (List.mem_cons_of_mem _ hq)
      simp only [exdLoop, List.head?_cons, List.tail_cons] at h
      split at h
      · cases h
      · split at h
        · cases h
        · split at h
          · cases h
          · rw [ih sfxRest _ true d2 dir2 x hxrest hunirest hmkrest h,
              lookup_after_convert hkey hmkkey]
      · exact ih sfxRest d dir d2 dir2 x hxrest hunirest hmkrest h

theorem exdLoop_true_mono {arrays : List NDArray} :
    ∀ (ks sfx : List String) (d : DataMap) (d2 : DataMap) (dir2 : Bool),
    exdLoop arrays ks sfx d true = Except.ok (d2, dir2) → dir2 = true := by
  intro ks
  induction ks with
  | nil =>
    intro sfx d d2 dir2 h
    simp only [exdLoop] at h
    cases h
    rfl
  | cons key rest ih =>
    intro sfx d d2 dir2 h
    simp only [exdLoop] at h
    split at h
    · cases h
    · split at h
      · cases h
      · split at h
        · cases h
        · split at h
          · cases h
          · exact ih _ _ _ _ h
    · exact ih _ _ _ _ h

theorem exdLoop_no_array {arrays : List NDArray} :
    ∀ (ks sfx : List String) (d : DataMap) (dir : Bool),
    (∀ k ∈ ks, ∃ v, lookupKey k d = some v ∧ isNdarray v = false) →
    exdLoop arrays ks sfx d dir = Except.ok (d, dir) := by
  intro ks
  induction ks with
  | nil => intro sfx d dir _; simp [exdLoop]
  | cons key rest ih =>
    intro sfx d dir hna
    obtain ⟨v, hv, hnv⟩ := hna key (List.mem_cons_self key rest)
    have hrest : ∀ k ∈ rest, ∃ v, lookupKey k d = some v ∧ isNdarray v = false :=
      fun k hk => hna k (List.mem_cons_of_mem key hk)
    cases v with
    | str s => simp only [exdLoop, hv]; exact ih _ _ _ hrest
    | arrRef a => simp [isNdarray] at hnv
    | mtensor a mm => simp only [exdLoop, hv]; exact ih _ _ _ hrest
    | mdict mm => simp only [exdLoop, hv]; exact ih _ _ _ hrest

theorem exdLoop_array_direct {arrays : List NDArray} :
    ∀ (ks sfx : List String) (d : DataMap) (dir : Bool) (d2 : DataMap) (dir2 : Bool)
      (x : String) (a : Nat),
    x ∈ ks → (∀ pf ∈ sfx, pf = metaDictSuffix) →
    (∀ k' ∈ ks, k' ++ "_" ++ metaDictSuffix ≠ x) →
    lookupKey x d = some (PyVal.arrRef a) →
    exdLoop arrays ks sfx d dir = Except.ok (d2, dir2) → dir2 = true := by
  intro ks
  induction ks with
  | nil => intro sfx d dir d2 dir2 x a hx; cases hx
  | cons key rest ih =>
    intro sfx d dir d2 dir2 x a hx huni hmk hv h
    have hmkrest : ∀ k' ∈ rest, k' ++ "_" ++ metaDictSuffix ≠ x :=
      fun k' hk' => hmk k' (List.mem_cons_of_mem key hk')
    by_cases hkx : key = x
    · subst hkx
      cases sfx with
      | nil => simp only [exdLoop, hv, List.head?_nil] at h; cases h
      | cons pf sfxRest =>
        simp only [exdLoop, hv, List.head?_cons, List.tail_cons] at h
        split at h
        · cases h
        · split at h
          · cases h
          · exact exdLoop_true_mono _ _ _ _ _ h
    · have hxrest : x ∈ rest := by
        cases List.mem_cons.1 hx with
        | inl he => exact absurd he.symm hkx
        | inr hr => exact hr
      cases sfx with
      | nil =>
        simp only [exdLoop, List.head?_nil, List.tail_nil] at h
        split at h
        · cases h
        · cases h
        · exact ih [] d dir d2 dir2 x a hxrest (by intro pf hpf; cases hpf)
            hmkrest hv h
      | cons pf sfxRest =>
        have hpf : pf = metaDictSuffix := huni pf (List.mem_cons_self pf sfxRest)
        subst hpf
        have hunirest : ∀ q ∈ sfxRest, q = metaDictSuffix :=
          fun q hq => huni q (List.mem_cons_of_mem _ hq)
        simp only [exdLoop, List.head?_cons, List.tail_cons] at h
        split at h
        · cases h
        · split at h
          · cases h
          · split at h
            · cases h
            · refine ih sfxRest _ true d2 dir2 x a hxrest hunirest hmkrest ?_ h
              rw [lookup_after_convert (fun he => hkx he)
                (hmk key (List.mem_cons_self key rest))]
              exact hv
        · exact ih sfxRest d dir d2 dir2 x a hxrest hunirest hmkrest hv h

theorem exdLoop_array_key {arrays : List NDArray} :
    ∀ (ks sfx : List String) (d : DataMap) (dir : Bool) (d2 : DataMap) (dir2 : Bool)
      (x : String) (a : Nat) (arr : NDArray),
    x ∈ ks → ks.Nodup → (∀ pf ∈ sfx, pf = metaDictSuffix) →
    (∀ k' ∈ ks, k' ++ "_" ++ metaDictSuffix ≠ x) →
    lookupKey x d = some (PyVal.arrRef a) → arrays[a]? = some arr →
    exdLoop arrays ks sfx d dir = Except.ok (d2, dir2) →
    ∃ mm, lookupKey x d2 = some (PyVal.mtensor a mm) ∧
      lookupKey "spatial_shape" mm = some (MetaVal.shape arr.shape.dropLast) ∧
      lookupKey "original_channel_dim" mm = some (MetaVal.int (-1)) ∧
      lookupKey "original_affine" mm = some MetaVal.null := by
  intro ks
  induction ks with
  | nil => intro sfx d dir d2 dir2 x a arr hx; cases hx
  | cons key rest ih =>
    intro sfx d dir d2 dir2 x a arr hx hnd huni hmk hv ha h
    have hmkrest : ∀ k' ∈ rest, k' ++ "_" ++ metaDictSuffix ≠ x :=
      fun k' hk' => hmk k' (List.mem_cons_of_mem key hk')
    have hndrest : rest.Nodup := (List.nodup_cons.1 hnd).2
    by_cases hkx : key = x
    · subst hkx
      have hxrest : key ∉ rest := (List.nodup_cons.1 hnd).1
      cases sfx with
      | nil => simp only [exdLoop, hv, List.head?_nil] at h; cases h
      | cons pf sfxRest =>
        have hpf : pf = metaDictSuffix := huni pf (List.mem_cons_self pf sfxRest)
        subst hpf
        have hunirest : ∀ q ∈ sfxRest, q = metaDictSuffix :=
          fun q hq => huni q (List.mem_cons_of_mem _ hq)
        simp only [exdLoop, hv, List.head?_cons, List.tail_cons, ha] at h
        split at h
        · cases h
        · rename_i mm0 hmm0
          refine ⟨populateMeta mm0 arr.shape.dropLast, ?_,
            populateMeta_spatial _ _, populateMeta_channel _ _, populateMeta_affine _ _⟩
          rw [exdLoop_frame rest sfxRest _ true d2 dir2 key hxrest hunirest hmkrest h,
            lookupKey_setKey_self]
    · have hxrest : x ∈ rest := by
        cases List.mem_cons.1 hx with
        | inl he => exact absurd he.symm hkx
        | inr hr => exact hr
      cases sfx with
      | nil =>
        simp only [exdLoop, List.head?_nil, List.tail_nil] at h
        split at h
        · cases h
        · cases h
        · exact ih [] d dir d2 dir2 x a arr hxrest hndrest
            (by intro pf hpf; cases hpf) hmkrest hv ha h
      | cons pf sfxRest =>
        have hpf : pf = metaDictSuffix := huni pf (List.mem_cons_self pf sfxRest)
        subst hpf
        have hunirest : ∀ q ∈ sfxRest, q = metaDictSuffix :=
          fun q hq => huni q (List.mem_cons_of_mem _ hq)
        simp only [exdLoop, List.head?_cons, List.tail_cons] at h
        split at h
        · cases h
        · split at h
          · cases h
          · split at h
            · cases h
            · refine ih sfxRest _ true d2 dir2 x a arr hxrest hndrest hunirest
                hmkrest ?_ ha h
              rw [lookup_after_convert (fun he => hkx he)
                (hmk key (List.mem_cons_self key rest))]
              exact hv
        · exact ih sfxRest d dir d2 dir2 x a arr hxrest hndrest hunirest
            hmkrest hv ha h

theorem exdLoop_str_key {arrays : List NDArray} :
    ∀ (ks sfx : List String) (d : DataMap) (dir : Bool) (d2 : DataMap) (dir2 : Bool)
      (x s : String),
    (∀ pf ∈ sfx, pf = metaDictSuffix) →
    (∀ k' ∈ ks, k' ++ "_" ++ metaDictSuffix ≠ x) →
    lookupKey x d = some (PyVal.str s) →
    exdLoop arrays ks sfx d dir = Except.ok (d2, dir2) →
    lookupKey x d2 = some (PyVal.str s) := by
  intro ks
  induction ks with
  | nil =>
    intro sfx d dir d2 dir2 x s _ _ hv h
    simp only [exdLoop] at h
    cases h
    exact hv
  | cons key rest ih =>
    intro sfx d dir d2 dir2 x s huni hmk hv h
    have hmkrest : ∀ k' ∈ rest, k' ++ "_" ++ metaDictSuffix ≠ x :=
      fun k' hk' => hmk k' (List.mem_cons_of_mem key hk')
    by_cases hkx : key = x
    · subst hkx
      simp only [exdLoop, hv] at h
      cases sfx with
      | nil =>
        exact ih [] d dir d2 dir2 key s (by intro pf hpf; cases hpf) hmkrest hv h
      | cons pf sfxRest =>
        have hunirest : ∀ q ∈ sfxRest, q = metaDictSuffix :=
          fun q hq => huni q (List.mem_cons_of_mem _ hq)
        exact ih sfxRest d dir d2 dir2 key s hunirest hmkrest hv h
    · cases sfx with
      | nil =>
        simp only [exdLoop, List.head?_nil, List.tail_nil] at h
        split at h
        · cases h
        · cases h
        · exact ih [] d dir d2 dir2 x s (by intro pf hpf; cases hpf) hmkrest hv h
      | cons pf sfxRest =>
        have hpf : pf = metaDictSuffix := huni pf (List.mem_cons_self pf sfxRest)
        subst hpf
        have hunirest : ∀ q ∈ sfxRest, q = metaDictSuffix :=
          fun q hq => huni q (List.mem_cons_of_mem _ hq)
        simp only [exdLoop, List.head?_cons, List.tail_cons] at h
        split at h
        · cases h
        · split at h
          · cases h
          · split at h
            · cases h
            · refine ih sfxRest _ true d2 dir2 x s hunirest hmkrest ?_ h
              rw [lookup_after_convert (fun he => hkx he)
                (hmk key (List.mem_cons_self key rest))]
              exact hv
        · exact ih sfxRest d dir d2 dir2 x s hunirest hmkrest hv h

theorem exdLoop_meta_key {arrays : List NDArray} :
    ∀ (ks sfx : List String) (d : DataMap) (dir : Bool) (d2 : DataMap) (dir2 : Bool)
      (x : String) (a : Nat) (arr : NDArray),
    x ∈ ks → ks.Nodup → (x ++ "_" ++ metaDictSuffix) ∉ ks →
    (∀ pf ∈ sfx, pf = metaDictSuffix) →
    (∀ k' ∈ ks, k' ++ "_" ++ metaDictSuffix ≠ x) →
    lookupKey x d = some (PyVal.arrRef a) → arrays[a]? = some arr →
    exdLoop arrays ks sfx d dir = Except.ok (d2, dir2) →
    ∃ mm, lookupKey (x ++ "_" ++ metaDictSuffix) d2 = some (PyVal.mdict mm) ∧
      lookupKey "spatial_shape" mm = some (MetaVal.shape arr.shape.dropLast) ∧
      lookupKey "original_channel_dim" mm = some (MetaVal.int (-1)) ∧
      lookupKey "original_affine" mm = some MetaVal.null ∧
      (lookupKey (x ++ "_" ++ metaDictSuffix) d = none →
        ∀ f : String, f ≠ "spatial_shape" → f ≠ "original_channel_dim" →
          f ≠ "original_affine" → lookupKey f mm = none) ∧
      (∀ mm0, lookupKey (x ++ "_" ++ metaDictSuffix) d = some (PyVal.mdict mm0) →
        ∀ f : String, f ≠ "spatial_shape" → f ≠ "original_channel_dim" →
          f ≠ "original_affine" → lookupKey f mm = lookupKey f mm0) := by
  intro ks
  induction ks with
  | nil => intro sfx d dir d2 dir2 x a arr hx; cases hx
  | cons key rest ih =>
    intro sfx d dir d2 dir2 x a arr hx hnd hmkx huni hmk hv ha h
    have hmkrest : ∀ k' ∈ rest, k' ++ "_" ++ metaDictSuffix ≠ x :=
      fun k' hk' => hmk k' (List.mem_cons_of_mem key hk')
    have hmkxrest : (x ++ "_" ++ metaDictSuffix) ∉ rest :=
      fun hr => hmkx (List.mem_cons_of_mem key hr)
    have hndrest : rest.Nodup := (List.nodup_cons.1 hnd).2
    by_cases hkx : key = x
    · subst hkx
      have hxrest : key ∉ rest := (List.nodup_cons.1 hnd).1
      have hclash : ∀ k' ∈ rest,
          k' ++ "_" ++ metaDictSuffix ≠ key ++ "_" ++ metaDictSuffix :=
        fun k' hk' he => hxrest (metaKey_inj he ▸ hk')
      cases sfx with
      | nil => simp only [exdLoop, hv, List.head?_nil] at h; cases h
      | cons pf sfxRest =>
        have hpf : pf = metaDictSuffix := huni pf (List.mem_cons_self pf sfxRest)
        subst hpf
        have hunirest : ∀ q ∈ sfxRest, q = metaDictSuffix :=
          fun q hq => huni q (List.mem_cons_of_mem _ hq)
        simp only [exdLoop, hv, List.head?_cons, List.tail_cons, ha] at h
        cases hmv : lookupKey (key ++ "_" ++ metaDictSuffix) d with
        | none =>
          simp only [pySetdefaultMeta, hmv] at h
          refine ⟨populateMeta [] arr.shape.dropLast, ?_, populateMeta_spatial _ _,
            populateMeta_channel _ _, populateMeta_affine _ _, ?_, ?_⟩
          · rw [exdLoop_frame rest sfxRest _ true d2 dir2 _ hmkxrest hunirest hclash h,
              lookupKey_setKey_ne (Ne.symm (ne_metaKey_self key)),
              lookupKey_setKey_self]
          · intro _ f hf1 hf2 hf3
            rw [populateMeta_other _ _ hf1 hf2 hf3]
            rfl
          · intro mm0 hm0
            simp at hm0
        | some v =>
          cases v with
          | str s => simp only [pySetdefaultMeta, hmv] at h; cases h
          | arrRef n => simp only [pySetdefaultMeta, hmv] at h; cases h
          | mtensor n mmq => simp only [pySetdefaultMeta, hmv] at h; cases h
          | mdict mm0 =>
            simp only [pySetdefaultMeta, hmv] at h
            refine ⟨populateMeta mm0 arr.shape.dropLast, ?_, populateMeta_spatial _ _,
              populateMeta_channel _ _, populateMeta_affine _ _, ?_, ?_⟩
            · rw [exdLoop_frame rest sfxRest _ true d2 dir2 _ hmkxrest hunirest hclash h,
                lookupKey_setKey_ne (Ne.symm (ne_metaKey_self key)),
                lookupKey_setKey_self]
            · intro hn
              simp at hn
            · intro mm0' hm0 f hf1 hf2 hf3
              have hmm : mm0 = mm0' := by simpa using hm0
              rw [populateMeta_other _ _ hf1 hf2 hf3, hmm]
    · have hxrest : x ∈ rest := by
        cases List.mem_cons.1 hx with
        | inl he => exact absurd he.symm hkx
        | inr hr => exact hr
      have hkne : key ≠ x := fun he => hkx he
      have hmkne : key ++ "_" ++ metaDictSuffix ≠ x :=
        hmk key (List.mem_cons_self key rest)
      have hkne2 : key ≠ x ++ "_" ++ metaDictSuffix :=
        fun he => hmkx (he ▸ List.mem_cons_self key rest)
      have hmkne2 : key ++ "_" ++ metaDictSuffix ≠ x ++ "_" ++ metaDictSuffix :=
        fun he => hkx (metaKey_inj he)
      cases sfx with
      | nil =>
        simp only [exdLoop, List.head?_nil, List.tail_nil] at h
        split at h
        · cases h
        · cases h
        · exact ih [] d dir d2 dir2 x a arr hxrest hndrest hmkxrest
            (by intro pf hpf; cases hpf) hmkrest hv ha h
      | cons pf sfxRest =>
        have hpf : pf = metaDictSuffix := huni pf (List.mem_cons_self pf sfxRest)
        subst hpf
        have hunirest : ∀ q ∈ sfxRest, q = metaDictSuffix :=
          fun q hq => huni q (List.mem_cons_of_mem _ hq)
        simp only [exdLoop, List.head?_cons, List.tail_cons] at h
        split at h
        · cases h
        · split at h
          · cases h
          · split at h
            · cases h
            · obtain ⟨mm, h1, h2, h3, h4, h5, h6⟩ :=
                ih sfxRest _ true d2 dir2 x a arr hxrest hndrest hmkxrest hunirest
                  hmkrest (by rw [lookup_after_convert hkne hmkne]; exact hv) ha h
              refine ⟨mm, h1, h2, h3, h4, ?_, ?_⟩
              · intro hn f hf1 hf2 hf3
                refine h5 ?_ f hf1 hf2 hf3
                rw [lookup_after_convert hkne2 hmkne2]
                exact hn
              · intro mm0 hm0 f hf1 hf2 hf3
                refine h6 mm0 ?_ f hf1 hf2 hf3
                rw [lookup_after_convert hkne2 hmkne2]
                exact hm0
        · exact ih sfxRest d dir d2 dir2 x a arr hxrest hndrest hmkxrest hunirest
            hmkrest hv ha h

/-! ### Lemmas about the `NormalizeLabeld` per-key loop -/

theorem normalizeVal_idem (value x : Int) :
    normalizeVal value (normalizeVal value x) = normalizeVal value x := by
  unfold normalizeVal
  split_ifs <;> rfl

theorem mapArr_idem (value : Int) (arr : NDArray) :
    mapArr value (mapArr value arr) = mapArr value arr := by
  unfold mapArr
  simp only [List.map_map]
  congr 1
  exact List.map_congr_left (fun x _ => normalizeVal_idem value x)

theorem normalizeLoop_d_eq {value : Int} :
    ∀ (ks : List String) (arrays : List NDArray) (d : DataMap)
      (ar2 : List NDArray) (d2 : DataMap),
    normalizeLoop value ks arrays d = Except.ok (ar2, d2) → d2 = d := by
  intro ks
  induction ks with
  | nil =>
    intro arrays d ar2 d2 h
    simp only [normalizeLoop] at h
    cases h
    rfl
  | cons key rest ih =>
    intro arrays d ar2 d2 h
    cases hl : lookupKey key d with
    | none => simp only [normalizeLoop, hl] at h; cases h
    | some label =>
      cases hva : valArrAddr label with
      | none => simp only [normalizeLoop, hl, hva] at h; cases h
      | some a =>
        cases ha : arrays[a]? with
        | none => simp only [normalizeLoop, hl, hva, ha] at h; cases h
        | some arr =>
          simp only [normalizeLoop, hl, hva, ha] at h
          rw [ih _ _ _ _ h, setKey_eq_of_lookup hl]

theorem normalizeLoop_fixed {value : Int} :
    ∀ (ks : List String) (arrays : List NDArray) (d : DataMap)
      (ar2 : List NDArray) (d2 : DataMap) (a : Nat) (arrF : NDArray),
    arrays[a]? = some arrF → mapArr value arrF = arrF →
    normalizeLoop value ks arrays d = Except.ok (ar2, d2) → ar2[a]? = some arrF := by
  intro ks
  induction ks with
  | nil =>
    intro arrays d ar2 d2 a arrF hF _ h
    simp only [normalizeLoop] at h
    cases h
    exact hF
  | cons key rest ih =>
    intro arrays d ar2 d2 a arrF hF hfix h
    cases hl : lookupKey key d with
    | none => simp only [normalizeLoop, hl] at h; cases h
    | some label =>
      cases hva : valArrAddr label with
      | none => simp only [normalizeLoop, hl, hva] at h; cases h
      | some a' =>
        cases ha : arrays[a']? with
        | none => simp only [normalizeLoop, hl, hva, ha] at h; cases h
        | some arr =>
          simp only [normalizeLoop, hl, hva, ha] at h
          by_cases haa : a' = a
          · subst haa
            have harr : arr = arrF := by
              have := ha.symm.trans hF
              simpa using this
            subst harr
            rw [hfix, list_set_eq_of_getElem? ha] at h
            exact ih _ _ _ _ _ _ hF hfix h
          · refine ih _ _ _ _ _ _ ?_ hfix h
            rw [List.getElem?_set_ne haa]
            exact hF

theorem normalizeLoop_maps {value : Int} :
    ∀ (ks : List String) (arrays : List NDArray) (d : DataMap)
      (ar2 : List NDArray) (d2 : DataMap) (x : String) (v : PyVal) (a : Nat)
      (arr : NDArray),
    x ∈ ks → lookupKey x d = some v → valArrAddr v = some a →
    (∃ arr0, arrays[a]? = some arr0 ∧ mapArr value arr0 = mapArr value arr) →
    normalizeLoop value ks arrays d = Except.ok (ar2, d2) →
    ar2[a]? = some (mapArr value arr) := by
  intro ks
  induction ks with
  | nil => intro arrays d ar2 d2 x v a arr hx; cases hx
  | cons key rest ih =>
    intro arrays d ar2 d2 x v a arr hx hv hva hex h
    obtain ⟨arr0, ha0, hcomp⟩ := hex
    cases hl : lookupKey key d with
    | none => simp only [normalizeLoop, hl] at h; cases h
    | some label =>
      cases hva' : valArrAddr label with
      | none => simp only [normalizeLoop, hl, hva'] at h; cases h
      | some a' =>
        cases ha' : arrays[a']? with
        | none => simp only [normalizeLoop, hl, hva', ha'] at h; cases h
        | some arr' =>
          simp only [normalizeLoop, hl, hva', ha'] at h
          by_cases hkx : key = x
          · subst hkx
            have hlab : label = v := by
              have := hl.symm.trans hv
              simpa using this
            subst hlab
            have haa : a' = a := by
              have := hva'.symm.trans hva
              simpa using this
            subst haa
            have harr : arr' = arr0 := by
              have := ha'.symm.trans ha0
              simpa using this
            subst harr
            rw [hcomp] at h
            have hset : (arrays.set a' (mapArr value arr))[a']? =
                some (mapArr value arr) := list_getElem?_set_self _ ha'
            exact normalizeLoop_fixed rest _ _ _ _ _ _ hset (mapArr_idem value arr) h
          · have hxrest : x ∈ rest := by
              cases List.mem_cons.1 hx with
              | inl he => exact absurd he.symm hkx
              | inr hr => exact hr
            refine ih _ _ _ _ _ _ _ _ hxrest ?_ hva ?_ h
            · rw [lookupKey_setKey_ne (fun he => hkx he)]
              exact hv
            · by_cases haa : a' = a
              · subst haa
                have harr : arr' = arr0 := by
                  have := ha'.symm.trans ha0
                  simpa using this
                refine ⟨mapArr value arr', list_getElem?_set_self _ ha', ?_⟩
                rw [mapArr_idem, harr, hcomp]
              · refine ⟨arr0, ?_, hcomp⟩
                rw [List.getElem?_set_ne haa]
                exact ha0

theorem normalizeLoop_id {value : Int} :
    ∀ (ks : List String) (arrays : List NDArray) (d : DataMap),
    (∀ k ∈ ks, ∃ v a arrx, lookupKey k d = some v ∧ valArrAddr v = some a ∧
      arrays[a]? = some arrx ∧ mapArr value arrx = arrx) →
    normalizeLoop value ks arrays d = Except.ok (arrays, d) := by
  intro ks
  induction ks with
  | nil => intro arrays d _; simp [normalizeLoop]
  | cons key rest ih =>
    intro arrays d hall
    obtain ⟨v, a, arrx, hl, hva, ha, hfix⟩ := hall key (List.mem_cons_self key rest)
    simp only [normalizeLoop, hl, hva, ha]
    rw [hfix, list_set_eq_of_getElem? ha, setKey_eq_of_lookup hl]
    exact ih _ _ (fun k hk => hall k (List.mem_cons_of_mem key hk))

theorem normalizeLoop_post {value : Int} :
    ∀ (ks : List String) (arrays : List NDArray) (d : DataMap)
      (ar2 : List NDArray) (d2 : DataMap),
    normalizeLoop value ks arrays d = Except.ok (ar2, d2) →
    ∀ k ∈ ks, ∃ v a arrx, lookupKey k d2 = some v ∧ valArrAddr v = some a ∧
      ar2[a]? = some arrx ∧ mapArr value arrx = arrx := by
  intro ks
  induction ks with
  | nil => intro arrays d ar2 d2 _ k hk; cases hk
  | cons key rest ih =>
    intro arrays d ar2 d2 h k hk
    cases hl : lookupKey key d with
    | none => simp only [normalizeLoop, hl] at h; cases h
    | some label =>
      cases hva : valArrAddr label with
      | none => simp only [normalizeLoop, hl, hva] at h; cases h
      | some a =>
        cases ha : arrays[a]? with
        | none => simp only [normalizeLoop, hl, hva, ha] at h; cases h
        | some arr =>
          simp only [normalizeLoop, hl, hva, ha] at h
          cases List.mem_cons.1 hk with
          | inl hkk =>
            subst hkk
            refine ⟨label, a, mapArr value arr, ?_, hva, ?_, mapArr_idem value arr⟩
            · rw [normalizeLoop_d_eq _ _ _ _ _ h, lookupKey_setKey_self]
            · exact normalizeLoop_fixed rest _ _ _ _ _ _
                (list_getElem?_set_self _ ha) (mapArr_idem value arr) h
          | inr hkr => exact ih _ _ _ _ h k hkr

/-! ### Heap-level helper lemmas -/

theorem ddicts_lt_of_lookup {h : Heap} {dataAddr : Nat} {m : DataMap}
    (hd : h.ddicts[dataAddr]? = some m) : dataAddr < h.ddicts.length := by
  rcases List.getElem?_eq_some.1 hd with ⟨hl, _⟩
  exact hl

theorem set_fresh_preserves {l : List DataMap} {i : Nat} {m : DataMap}
    (hi : l[i]? = some m) (d x : DataMap) :
    ((l ++ [x]).set l.length d)[i]? = some m := by
  have hlt : i < l.length := by
    rcases List.getElem?_eq_some.1 hi with ⟨hl, _⟩
    exact hl
  rw [List.getElem?_set_ne (Nat.ne_of_gt hlt), List.getElem?_append_left hlt]
  exact hi

theorem set_fresh_get {l : List DataMap} (x d : DataMap) :
    ((l ++ [x]).set l.length d)[l.length]? = some d := by
  rw [list_set_concat_length]
  exact List.getElem?_concat_length l d

/-! ### Concrete fixtures used by the witness theorems -/

/-- A small 2×2×3 array. -/
def wArr : NDArray := ⟨[2, 2, 3], [1, -2, 0, 3, 4, -5, 6, 0, 7, -8, 9, 10]⟩

/-- A decoder that always succeeds (stands for `np.asarray(Image.open(p))`). -/
def wDecode : String → Except PyErr NDArray := fun _ => Except.ok ⟨[4], [0, 1, 2, 3]⟩

/-- A default loader returning a recognisable address. -/
def wLoader : Heap → Nat → Except PyErr (Heap × Nat) := fun hh _ => Except.ok (hh, 99)

/-- A second, different default loader. -/
def wLoader2 : Heap → Nat → Except PyErr (Heap × Nat) := fun hh _ => Except.ok (hh, 77)

/-- An inherited `LoadImaged.__call__` stand-in. -/
def wSuper : Heap → Nat → Option Unit → Except PyErr (Heap × Nat) :=
  fun hh aa _ => Except.ok (hh, aa)

/-- A record whose only key holds a file path. -/
def wHeapStr : Heap := ⟨[], [[("image", PyVal.str "spleen.nii")]]⟩

/-- A record whose only key holds a direct array. -/
def wHeapArr : Heap := ⟨[wArr], [[("image", PyVal.arrRef 0)]]⟩

/-! ### Claim theorems -/

/-- C1: in `LoadImageTensord.__call__`, the caller-supplied default loader is
invoked on the whole record copy and its result returned exactly when every
target key's value is a string file path; as soon as one target key holds a
non-string (array) value, the default loader is never consulted and the
result does not depend on it. -/
theorem LoadImageTensord_default_loader_iff
    (keys : List String) (amk : Bool)
    (loadImageD : Heap → Nat → Except PyErr (Heap × Nat))
    (decodeImage : String → Except PyErr NDArray)
    (h : Heap) (dataAddr : Nat) (m : DataMap)
    (hd : h.ddicts[dataAddr]? = some m) :
    ((∀ k ∈ keys, ∃ s, lookupKey k m = some (PyVal.str s) ∧
        ∃ arr, decodeImage s = Except.ok arr) →
      loadImageTensord keys amk loadImageD decodeImage h dataAddr =
        loadImageD (h.allocDDict m).1 (h.allocDDict m).2) ∧
    ((∃ k ∈ keys, ∃ v, lookupKey k m = some v ∧ isStr v = false) →
      ∀ g : Heap → Nat → Except PyErr (Heap × Nat),
        loadImageTensord keys amk loadImageD decodeImage h dataAddr =
          loadImageTensord keys amk g decodeImage h dataAddr) := by
  constructor
  · intro hall
    simp only [loadImageTensord, hd, Heap.allocDDict,
      tensordLoop_all_str keys m true hall, list_set_concat_length]
    simp
  · rintro ⟨k, hk, v, hv, hnv⟩ g
    simp only [loadImageTensord, hd]
    cases hres : tensordLoop decodeImage (h.allocDDict m).1.arrays keys m true with
    | error e => rfl
    | ok p =>
      obtain ⟨d2, u2⟩ := p
      have hu2 : u2 = false :=
        tensordLoop_nonstring_no_default keys m true d2 u2 k hk
          (fun w hw => by
            have hwv : w = v := by
              have := hw.symm.trans hv
              simpa using this
            rw [hwv]; exact hnv)
          ⟨v, hv⟩ hres
      subst hu2
      simp

/-- C1 witness: for the record `{"image": "spleen.nii"}` the default loader
is invoked and its output returned; for `{"image": <2×2×3 array>}` the
result is the same whichever default loader is supplied. -/
theorem LoadImageTensord_default_loader_iff_witness :
    (loadImageTensord ["image"] false wLoader wDecode wHeapStr 0 =
      wLoader (wHeapStr.allocDDict [("image", PyVal.str "spleen.nii")]).1
        (wHeapStr.allocDDict [("image", PyVal.str "spleen.nii")]).2) ∧
    (loadImageTensord ["image"] false wLoader wDecode wHeapArr 0 =
      loadImageTensord ["image"] false wLoader2 wDecode wHeapArr 0) :=
  ⟨(LoadImageTensord_default_loader_iff ["image"] false wLoader wDecode
      wHeapStr 0 [("image", PyVal.str "spleen.nii")] rfl).1
      (by
        intro k hk
        rcases List.mem_singleton.1 hk with rfl
        exact ⟨"spleen.nii", by decide, ⟨_, rfl⟩⟩),
   (LoadImageTensord_default_loader_iff ["image"] false wLoader wDecode
      wHeapArr 0 [("image", PyVal.arrRef 0)] rfl).2
      ⟨"image", by decide, PyVal.arrRef 0, by decide, by decide⟩ wLoader2⟩

/-- A record for `LoadImageExd` in which key "a" holds a direct array and the
subsequent key "b" holds a file-path string. -/
def c2Heap : Heap := ⟨[wArr], [[("a", PyVal.arrRef 0), ("b", PyVal.str "liver.nii")]]⟩

/-- The result of `LoadImageExd` on `c2Heap` with keys `["a", "b"]`. -/
def c2Res : Heap × Nat :=
  match loadImageExd ["a", "b"] (List.replicate 2 metaDictSuffix) wSuper c2Heap 0
      (none : Option Unit) with
  | Except.ok hr => hr
  | Except.error _ => (⟨[], []⟩, 0)

/-- The value bound to "b" in the record returned by that call. -/
def c2ResultB : Option PyVal :=
  match c2Res.1.ddicts[c2Res.2]? with
  | some d2 => lookupKey "b" d2
  | none => none

/-- C2 counterexample: with keys `["a", "b"]`, where "a" holds a direct array
and the subsequent key "b" holds a string path, `LoadImageExd` leaves "b"
bound to its original path string — it is not converted to
tensor-with-metadata, contradicting the claim that the first direct-array
key and all subsequent target keys are converted. -/
theorem LoadImageExd_subsequent_string_counterexample :
    c2ResultB = some (PyVal.str "liver.nii") := by rfl

/-- C2 (amended): in `LoadImageExd.__call__`, every target key whose value is
a direct array is converted to tensor-with-metadata (same metadata
construction as `LoadImageTensord`), while target keys whose values are
string paths keep their original strings when some key held a direct array
(the inherited file loading being skipped for the whole call). -/
theorem LoadImageExd_direct_array_conversion
    {R : Type} (keys : List String)
    (superCall : Heap → Nat → Option R → Except PyErr (Heap × Nat))
    (h : Heap) (dataAddr : Nat) (reader : Option R) (m : DataMap)
    (ka : String) (a : Nat) (arr : NDArray) (ks s : String)
    (hd : h.ddicts[dataAddr]? = some m)
    (hka : ka ∈ keys) (hnd : keys.Nodup)
    (hcla : ∀ k' ∈ keys, k' ++ "_" ++ metaDictSuffix ≠ ka)
    (hva : lookupKey ka m = some (PyVal.arrRef a))
    (ha : h.arrays[a]? = some arr)
    (hcls : ∀ k' ∈ keys, k' ++ "_" ++ metaDictSuffix ≠ ks)
    (hvs : lookupKey ks m = some (PyVal.str s)) :
    ∀ h2 da2, loadImageExd keys (List.replicate keys.length metaDictSuffix)
        superCall h dataAddr reader = Except.ok (h2, da2) →
      ∃ d2, h2.ddicts[da2]? = some d2 ∧
        (∃ mm, lookupKey ka d2 = some (PyVal.mtensor a mm) ∧
          lookupKey "spatial_shape" mm = some (MetaVal.shape arr.shape.dropLast) ∧
          lookupKey "original_channel_dim" mm = some (MetaVal.int (-1)) ∧
          lookupKey "original_affine" mm = some MetaVal.null) ∧
        lookupKey ks d2 = some (PyVal.str s) := by
  intro h2 da2 heq
  have huni : ∀ pf ∈ List.replicate keys.length metaDictSuffix,
      pf = metaDictSuffix := fun pf hpf => List.eq_of_mem_replicate hpf
  simp only [loadImageExd, hd] at heq
  cases hres : exdLoop (h.allocDDict m).1.arrays keys
      (List.replicate keys.length metaDictSuffix) m false with
  | error e => rw [hres] at heq; cases heq
  | ok p =>
    obtain ⟨d2', dir⟩ := p
    rw [hres] at heq
    have hdir : dir = true :=
      exdLoop_array_direct keys _ m false d2' dir ka a hka huni hcla hva hres
    subst hdir
    simp only [if_true] at heq
    cases heq
    refine ⟨d2', set_fresh_get _ _, ?_, ?_⟩
    · exact exdLoop_array_key keys _ m false d2' true ka a arr hka hnd huni
        hcla hva ha hres
    · exact exdLoop_str_key keys _ m false d2' true ks s huni hcls hvs hres

/-- C2 witness: concrete instance of the amended claim on `c2Heap`. -/
theorem LoadImageExd_direct_array_conversion_witness :
    ∃ d2, c2Res.1.ddicts[c2Res.2]? = some d2 ∧
      (∃ mm, lookupKey "a" d2 = some (PyVal.mtensor 0 mm) ∧
        lookupKey "spatial_shape" mm = some (MetaVal.shape wArr.shape.dropLast) ∧
        lookupKey "original_channel_dim" mm = some (MetaVal.int (-1)) ∧
        lookupKey "original_affine" mm = some MetaVal.null) ∧
      lookupKey "b" d2 = some (PyVal.str "liver.nii") :=
  @LoadImageExd_direct_array_conversion Unit ["a", "b"] wSuper c2Heap 0
    none [("a", PyVal.arrRef 0), ("b", PyVal.str "liver.nii")] "a" 0 wArr "b"
    "liver.nii" rfl (by decide) (by decide) (by decide) (by decide) rfl
    (by decide) (by decide) c2Res.1 c2Res.2 (by rfl)

/-- C3: in both `LoadImageTensord` and `LoadImageExd`, a target key holding a
direct array of shape `s` ends up bound to a tensor-with-metadata wrapping
the same (unchanged) array, whose metadata records
`spatial_shape = s[:-1]`, `original_channel_dim = -1`, and
`original_affine = None`. -/
theorem array_key_tensor_metadata
    {R : Type} (keys : List String) (amk : Bool)
    (loadImageD : Heap → Nat → Except PyErr (Heap × Nat))
    (decodeImage : String → Except PyErr NDArray)
    (superCall : Heap → Nat → Option R → Except PyErr (Heap × Nat))
    (reader : Option R)
    (h : Heap) (dataAddr : Nat) (m : DataMap)
    (x : String) (a : Nat) (arr : NDArray)
    (hd : h.ddicts[dataAddr]? = some m)
    (hx : x ∈ keys) (hnd : keys.Nodup)
    (hcl : ∀ k' ∈ keys, k' ++ "_" ++ metaDictSuffix ≠ x)
    (hv : lookupKey x m = some (PyVal.arrRef a))
    (ha : h.arrays[a]? = some arr) :
    (∀ h2 da2, loadImageTensord keys amk loadImageD decodeImage h dataAddr
        = Except.ok (h2, da2) →
      ∃ d2, h2.ddicts[da2]? = some d2 ∧ h2.arrays[a]? = some arr ∧
        ∃ mm, lookupKey x d2 = some (PyVal.mtensor a mm) ∧
          lookupKey "spatial_shape" mm = some (MetaVal.shape arr.shape.dropLast) ∧
          lookupKey "original_channel_dim" mm = some (MetaVal.int (-1)) ∧
          lookupKey "original_affine" mm = some MetaVal.null) ∧
    (∀ h2 da2, loadImageExd keys (List.replicate keys.length metaDictSuffix)
        superCall h dataAddr reader = Except.ok (h2, da2) →
      ∃ d2, h2.ddicts[da2]? = some d2 ∧ h2.arrays[a]? = some arr ∧
        ∃ mm, lookupKey x d2 = some (PyVal.mtensor a mm) ∧
          lookupKey "spatial_shape" mm = some (MetaVal.shape arr.shape.dropLast) ∧
          lookupKey "original_channel_dim" mm = some (MetaVal.int (-1)) ∧
          lookupKey "original_affine" mm = some MetaVal.null) := by
  constructor
  · intro h2 da2 heq
    simp only [loadImageTensord, hd] at heq
    cases hres : tensordLoop decodeImage (h.allocDDict m).1.arrays keys m true with
    | error e => rw [hres] at heq; cases heq
    | ok p =>
      obtain ⟨d2', u2⟩ := p
      rw [hres] at heq
      have hu2 : u2 = false :=
        tensordLoop_nonstring_no_default keys m true d2' u2 x hx
          (fun w hw => by
            have hwv : w = PyVal.arrRef a := by
              have := hw.symm.trans hv
              simpa using this
            rw [hwv]; rfl)
          ⟨_, hv⟩ hres
      subst hu2
      simp only [Bool.false_eq_true, if_false] at heq
      cases heq
      exact ⟨d2', set_fresh_get _ _, ha,
        tensordLoop_array_key keys m true d2' false x a arr hx hnd hcl hv ha hres⟩
  · intro h2 da2 heq
    have huni : ∀ pf ∈ List.replicate keys.length metaDictSuffix,
        pf = metaDictSuffix := fun pf hpf => List.eq_of_mem_replicate hpf
    simp only [loadImageExd, hd] at heq
    cases hres : exdLoop (h.allocDDict m).1.arrays keys
        (List.replicate keys.length metaDictSuffix) m false with
    | error e => rw [hres] at heq; cases heq
    | ok p =>
      obtain ⟨d2', dir⟩ := p
      rw [hres] at heq
      have hdir : dir = true :=
        exdLoop_array_direct keys _ m false d2' dir x a hx huni hcl hv hres
      subst hdir
      simp only [if_true] at heq
      cases heq
      exact ⟨d2', set_fresh_get _ _, ha,
        exdLoop_array_key keys _ m false d2' true x a arr hx hnd huni hcl hv ha hres⟩

/-- The result of `LoadImageTensord` on the array record, for the witness. -/
def c3ResT : Heap × Nat :=
  match loadImageTensord ["image"] false wLoader wDecode wHeapArr 0 with
  | Except.ok hr => hr
  | Except.error _ => (⟨[], []⟩, 0)

/-- The result of `LoadImageExd` on the array record, for the witness. -/
def c3ResE : Heap × Nat :=
  match loadImageExd ["image"] (List.replicate 1 metaDictSuffix) wSuper wHeapArr 0
      (none : Option Unit) with
  | Except.ok hr => hr
  | Except.error _ => (⟨[], []⟩, 0)

/-- C3 witness: both loaders on the record `{"image": <2×2×3 array>}`. -/
theorem array_key_tensor_metadata_witness :
    (∃ d2, c3ResT.1.ddicts[c3ResT.2]? = some d2 ∧ c3ResT.1.arrays[0]? = some wArr ∧
      ∃ mm, lookupKey "image" d2 = some (PyVal.mtensor 0 mm) ∧
        lookupKey "spatial_shape" mm = some (MetaVal.shape wArr.shape.dropLast) ∧
        lookupKey "original_channel_dim" mm = some (MetaVal.int (-1)) ∧
        lookupKey "original_affine" mm = some MetaVal.null) ∧
    (∃ d2, c3ResE.1.ddicts[c3ResE.2]? = some d2 ∧ c3ResE.1.arrays[0]? = some wArr ∧
      ∃ mm, lookupKey "image" d2 = some (PyVal.mtensor 0 mm) ∧
        lookupKey "spatial_shape" mm = some (MetaVal.shape wArr.shape.dropLast) ∧
        lookupKey "original_channel_dim" mm = some (MetaVal.int (-1)) ∧
        lookupKey "original_affine" mm = some MetaVal.null) :=
  ⟨(@array_key_tensor_metadata Unit ["image"] false wLoader wDecode wSuper
      none wHeapArr 0 [("image", PyVal.arrRef 0)] "image" 0 wArr rfl (by decide)
      (by decide) (by decide) (by decide) rfl).1 c3ResT.1 c3ResT.2 (by rfl),
   (@array_key_tensor_metadata Unit ["image"] false wLoader wDecode wSuper
      none wHeapArr 0 [("image", PyVal.arrRef 0)] "image" 0 wArr rfl (by decide)
      (by decide) (by decide) (by decide) rfl).2 c3ResE.1 c3ResE.2 (by rfl)⟩

/-- A second, different inherited-loader stand-in. -/
def wSuper2 : Heap → Nat → Option Unit → Except PyErr (Heap × Nat) :=
  fun hh _ _ => Except.ok (hh, 55)

/-- C4: in `LoadImageExd.__call__`, if some target key holds a direct array
(and survives until processed), the inherited file-loading path is skipped
for the entire call — the result does not depend on it; if no target key
holds a direct array, the call delegates entirely to the inherited
behaviour, passing the record copy and the caller-supplied reader through. -/
theorem LoadImageExd_short_circuit_or_delegate
    {R : Type} (keys : List String)
    (superCall : Heap → Nat → Option R → Except PyErr (Heap × Nat))
    (h : Heap) (dataAddr : Nat) (reader : Option R) (m : DataMap)
    (hd : h.ddicts[dataAddr]? = some m) :
    ((∃ ka ∈ keys, ∃ a, lookupKey ka m = some (PyVal.arrRef a) ∧
        (∀ k' ∈ keys, k' ++ "_" ++ metaDictSuffix ≠ ka)) →
      ∀ sc2 : Heap → Nat → Option R → Except PyErr (Heap × Nat),
        loadImageExd keys (List.replicate keys.length metaDictSuffix) superCall
          h dataAddr reader =
        loadImageExd keys (List.replicate keys.length metaDictSuffix) sc2
          h dataAddr reader) ∧
    ((∀ k ∈ keys, ∃ v, lookupKey k m = some v ∧ isNdarray v = false) →
      loadImageExd keys (List.replicate keys.length metaDictSuffix) superCall
          h dataAddr reader =
        superCall (h.allocDDict m).1 (h.allocDDict m).2 reader) := by
  have huni : ∀ pf ∈ List.replicate keys.length metaDictSuffix,
      pf = metaDictSuffix := fun pf hpf => List.eq_of_mem_replicate hpf
  constructor
  · rintro ⟨ka, hka, a, hva, hcla⟩ sc2
    simp only [loadImageExd, hd]
    cases hres : exdLoop (h.allocDDict m).1.arrays keys
        (List.replicate keys.length metaDictSuffix) m false with
    | error e => rfl
    | ok p =>
      obtain ⟨d2', dir⟩ := p
      have hdir : dir = true :=
        exdLoop_array_direct keys _ m false d2' dir ka a hka huni hcla hva hres
      subst hdir
      simp only [if_true]
  · intro hna
    simp only [loadImageExd, hd, Heap.allocDDict,
      exdLoop_no_array keys (List.replicate keys.length metaDictSuffix) m false hna,
      list_set_concat_length]
    simp

/-- C4 witness: with a direct-array record the result is the same for two
different inherited loaders; with an all-paths record the call returns
exactly what the inherited loader returns on the copied record. -/
theorem LoadImageExd_short_circuit_or_delegate_witness :
    (loadImageExd ["image"] (List.replicate 1 metaDictSuffix) wSuper wHeapArr 0
        (none : Option Unit) =
      loadImageExd ["image"] (List.replicate 1 metaDictSuffix) wSuper2 wHeapArr 0
        (none : Option Unit)) ∧
    (loadImageExd ["image"] (List.replicate 1 metaDictSuffix) wSuper wHeapStr 0
        (none : Option Unit) =
      wSuper (wHeapStr.allocDDict [("image", PyVal.str "spleen.nii")]).1
        (wHeapStr.allocDDict [("image", PyVal.str "spleen.nii")]).2 none) :=
  ⟨(@LoadImageExd_short_circuit_or_delegate Unit ["image"] wSuper wHeapArr
      0 none [("image", PyVal.arrRef 0)] rfl).1
      ⟨"image", by decide, 0, by decide, by decide⟩ wSuper2,
   (@LoadImageExd_short_circuit_or_delegate Unit ["image"] wSuper wHeapStr
      0 none [("image", PyVal.str "spleen.nii")] rfl).2
      (by
        intro k hk
        rcases List.mem_singleton.1 hk with rfl
        exact ⟨PyVal.str "spleen.nii", by decide, rfl⟩)⟩

/-- The label record for the `NormalizeLabeld` witnesses:
`{"label": array([-1, 0, 2, 5])}`. -/
def nHeap : Heap := ⟨[⟨[4], [-1, 0, 2, 5]⟩], [[("label", PyVal.arrRef 0)]]⟩

/-- C5: `NormalizeLabeld.__call__` rewrites, for every target key holding an
array, each element strictly greater than zero to the configured value and
leaves zero and negative elements unchanged, writing the result back (in
place) under the same key. -/
theorem NormalizeLabeld_binarize
    (keys : List String) (amk : Bool) (value : Int)
    (h : Heap) (dataAddr : Nat) (m : DataMap)
    (x : String) (v : PyVal) (a : Nat) (arr : NDArray)
    (hd : h.ddicts[dataAddr]? = some m)
    (hx : x ∈ keys)
    (hv : lookupKey x m = some v)
    (hva : valArrAddr v = some a)
    (ha : h.arrays[a]? = some arr) :
    ∀ h2 da2, normalizeLabeld keys amk value h dataAddr = Except.ok (h2, da2) →
      ∃ d2, h2.ddicts[da2]? = some d2 ∧ lookupKey x d2 = some v ∧
        h2.arrays[a]? = some (mapArr value arr) := by
  intro h2 da2 heq
  simp only [normalizeLabeld, hd] at heq
  cases hres : normalizeLoop value keys (h.allocDDict m).1.arrays m with
  | error e => rw [hres] at heq; cases heq
  | ok p =>
    obtain ⟨ar2, d2'⟩ := p
    rw [hres] at heq
    cases heq
    have hdm : d2' = m := normalizeLoop_d_eq keys _ m ar2 d2' hres
    refine ⟨d2', set_fresh_get _ _, ?_, ?_⟩
    · rw [hdm]; exact hv
    · exact normalizeLoop_maps keys _ m ar2 d2' x v a arr hx hv hva ⟨arr, ha, rfl⟩ hres

/-- The result of `NormalizeLabeld` on `nHeap` with value 1. -/
def c5Res : Heap × Nat :=
  match normalizeLabeld ["label"] false 1 nHeap 0 with
  | Except.ok hr => hr
  | Except.error _ => (⟨[], []⟩, 0)

/-- C5 witness: `array([-1, 0, 2, 5])` with value 1 becomes
`array([-1, 0, 1, 1])`, still bound to "label". -/
theorem NormalizeLabeld_binarize_witness :
    ∃ d2, c5Res.1.ddicts[c5Res.2]? = some d2 ∧
      lookupKey "label" d2 = some (PyVal.arrRef 0) ∧
      c5Res.1.arrays[0]? = some ⟨[4], [-1, 0, 1, 1]⟩ :=
  NormalizeLabeld_binarize ["label"] false 1 nHeap 0
    [("label", PyVal.arrRef 0)] "label" (PyVal.arrRef 0) 0 ⟨[4], [-1, 0, 2, 5]⟩
    rfl (by decide) (by decide) rfl rfl c5Res.1 c5Res.2 (by rfl)

/-- C6: string-valued target keys keep their original path strings: the
`LoadImageTensord` per-key loop never replaces a string-valued key (so
before any default-loader call the key still holds its path), and in
`LoadImageExd`, when some target key held a direct array, every
string-valued target key still holds its original path in the returned
record. -/
theorem string_keys_preserved
    {R : Type} (keys : List String)
    (decodeImage : String → Except PyErr NDArray)
    (superCall : Heap → Nat → Option R → Except PyErr (Heap × Nat))
    (reader : Option R)
    (h : Heap) (dataAddr : Nat) (m : DataMap)
    (x s : String)
    (hd : h.ddicts[dataAddr]? = some m)
    (hcl : ∀ k' ∈ keys, k' ++ "_" ++ metaDictSuffix ≠ x)
    (hv : lookupKey x m = some (PyVal.str s)) :
    (∀ d2 u2, tensordLoop decodeImage h.arrays keys m true = Except.ok (d2, u2) →
      lookupKey x d2 = some (PyVal.str s)) ∧
    ((∃ ka ∈ keys, ∃ a, lookupKey ka m = some (PyVal.arrRef a) ∧
        ∀ k' ∈ keys, k' ++ "_" ++ metaDictSuffix ≠ ka) →
      ∀ h2 da2, loadImageExd keys (List.replicate keys.length metaDictSuffix)
          superCall h dataAddr reader = Except.ok (h2, da2) →
        ∃ d2, h2.ddicts[da2]? = some d2 ∧ lookupKey x d2 = some (PyVal.str s)) := by
  constructor
  · intro d2 u2 hres
    exact tensordLoop_str_key keys m true d2 u2 x s hcl hv hres
  · rintro ⟨ka, hka, a, hva, hcla⟩ h2 da2 heq
    have huni : ∀ pf ∈ List.replicate keys.length metaDictSuffix,
        pf = metaDictSuffix := fun pf hpf => List.eq_of_mem_replicate hpf
    simp only [loadImageExd, hd] at heq
    cases hres : exdLoop (h.allocDDict m).1.arrays keys
        (List.replicate keys.length metaDictSuffix) m false with
    | error e => rw [hres] at heq; cases heq
    | ok p =>
      obtain ⟨d2', dir⟩ := p
      rw [hres] at heq
      have hdir : dir = true :=
        exdLoop_array_direct keys _ m false d2' dir ka a hka huni hcla hva hres
      subst hdir
      simp only [if_true] at heq
      cases heq
      exact ⟨d2', set_fresh_get _ _,
        exdLoop_str_key keys _ m false d2' true x s huni hcl hv hres⟩

/-- A mixed record: "image" holds a direct array, "label" holds a path. -/
def c6Heap : Heap :=
  ⟨[wArr], [[("image", PyVal.arrRef 0), ("label", PyVal.str "seg.nii")]]⟩

/-- The `LoadImageTensord` per-key loop result on the mixed record. -/
def c6LoopRes : DataMap × Bool :=
  match tensordLoop wDecode c6Heap.arrays ["image", "label"]
      [("image", PyVal.arrRef 0), ("label", PyVal.str "seg.nii")] true with
  | Except.ok p => p
  | Except.error _ => ([], true)

/-- The `LoadImageExd` result on the mixed record. -/
def c6ResE : Heap × Nat :=
  match loadImageExd ["image", "label"] (List.replicate 2 metaDictSuffix) wSuper
      c6Heap 0 (none : Option Unit) with
  | Except.ok hr => hr
  | Except.error _ => (⟨[], []⟩, 0)

/-- C6 witness: on the mixed record, "label" still holds "seg.nii" after the
Tensord loop and in the Exd output record. -/
theorem string_keys_preserved_witness :
    lookupKey "label" c6LoopRes.1 = some (PyVal.str "seg.nii") ∧
    ∃ d2, c6ResE.1.ddicts[c6ResE.2]? = some d2 ∧
      lookupKey "label" d2 = some (PyVal.str "seg.nii") :=
  ⟨(@string_keys_preserved Unit ["image", "label"] wDecode wSuper none
      c6Heap 0 [("image", PyVal.arrRef 0), ("label", PyVal.str "seg.nii")]
      "label" "seg.nii" rfl (by decide) (by decide)).1 c6LoopRes.1 c6LoopRes.2
      (by rfl),
   (@string_keys_preserved Unit ["image", "label"] wDecode wSuper none
      c6Heap 0 [("image", PyVal.arrRef 0), ("label", PyVal.str "seg.nii")]
      "label" "seg.nii" rfl (by decide) (by decide)).2
      ⟨"image", by decide, 0, by decide, by decide⟩ c6ResE.1 c6ResE.2 (by rfl)⟩

/-- C7: `NormalizeLabeld` is idempotent: when a call succeeds, running the
transform again on its output succeeds and changes nothing — the resulting
record has the same bindings and the array store is unchanged. -/
theorem NormalizeLabeld_idempotent
    (keys : List String) (amk : Bool) (value : Int)
    (h : Heap) (dataAddr : Nat) (h1 : Heap) (da1 : Nat)
    (hcall : normalizeLabeld keys amk value h dataAddr = Except.ok (h1, da1)) :
    ∃ h2 da2, normalizeLabeld keys amk value h1 da1 = Except.ok (h2, da2) ∧
      h2.ddicts[da2]? = h1.ddicts[da1]? ∧ h2.arrays = h1.arrays := by
  simp only [normalizeLabeld] at hcall ⊢
  cases hm : h.ddicts[dataAddr]? with
  | none => simp only [hm] at hcall; cases hcall
  | some m =>
    simp only [hm] at hcall
    cases hres : normalizeLoop value keys (h.allocDDict m).1.arrays m with
    | error e => simp only [hres] at hcall; cases hcall
    | ok p =>
      obtain ⟨ar2, d2⟩ := p
      simp only [hres] at hcall
      cases hcall
      have hpost := normalizeLoop_post keys _ m ar2 d2 hres
      simp only [Heap.allocDDict, set_fresh_get,
        normalizeLoop_id keys ar2 d2 hpost]
      exact ⟨_, _, rfl, set_fresh_get _ _, rfl⟩

/-- The result of running `NormalizeLabeld` a second time, for the witness. -/
def c7Res2 : Heap × Nat :=
  match normalizeLabeld ["label"] false 1 c5Res.1 c5Res.2 with
  | Except.ok hr => hr
  | Except.error _ => (⟨[], []⟩, 0)

/-- C7 witness: rerunning `NormalizeLabeld` on the output of the concrete
first run changes neither the record nor the array store. -/
theorem NormalizeLabeld_idempotent_witness :
    ∃ h2 da2, normalizeLabeld ["label"] false 1 c5Res.1 c5Res.2 =
        Except.ok (h2, da2) ∧
      h2.ddicts[da2]? = c5Res.1.ddicts[c5Res.2]? ∧ h2.arrays = c5Res.1.arrays :=
  NormalizeLabeld_idempotent ["label"] false 1 nHeap 0 c5Res.1 c5Res.2 (by rfl)

/-- C8: each of the three transforms works on a shallow copy (`d = dict(data)`)
of the caller's record: the caller's dictionary object keeps exactly its
original bindings after a successful call (assuming the external default
loader / inherited loader also leave it alone, which is all the transform
itself can promise).  For `NormalizeLabeld` the returned record even has the
same bindings as the caller's record — the nested array objects are shared
by reference, which is how the in-place binarization reaches them. -/
theorem transforms_preserve_caller_record
    {R : Type} (keys : List String) (amk : Bool) (value : Int)
    (loadImageD : Heap → Nat → Except PyErr (Heap × Nat))
    (decodeImage : String → Except PyErr NDArray)
    (superCall : Heap → Nat → Option R → Except PyErr (Heap × Nat))
    (reader : Option R)
    (h : Heap) (dataAddr : Nat) (m : DataMap)
    (hd : h.ddicts[dataAddr]? = some m)
    (hLD : ∀ hh aa hh2 aa2, loadImageD hh aa = Except.ok (hh2, aa2) →
      hh2.ddicts[dataAddr]? = hh.ddicts[dataAddr]?)
    (hSC : ∀ hh aa rr hh2 aa2, superCall hh aa rr = Except.ok (hh2, aa2) →
      hh2.ddicts[dataAddr]? = hh.ddicts[dataAddr]?) :
    (∀ h2 da2, loadImageTensord keys amk loadImageD decodeImage h dataAddr =
        Except.ok (h2, da2) → h2.ddicts[dataAddr]? = some m) ∧
    (∀ h2 da2, loadImageExd keys (List.replicate keys.length metaDictSuffix)
        superCall h dataAddr reader = Except.ok (h2, da2) →
      h2.ddicts[dataAddr]? = some m) ∧
    (∀ h2 da2, normalizeLabeld keys amk value h dataAddr = Except.ok (h2, da2) →
      h2.ddicts[dataAddr]? = some m ∧ h2.ddicts[da2]? = some m) := by
  refine ⟨?_, ?_, ?_⟩
  · intro h2 da2 heq
    simp only [loadImageTensord, hd] at heq
    cases hres : tensordLoop decodeImage (h.allocDDict m).1.arrays keys m true with
    | error e => rw [hres] at heq; cases heq
    | ok p =>
      obtain ⟨d2, u2⟩ := p
      rw [hres] at heq
      cases u2 with
      | false =>
        simp only [Bool.false_eq_true, if_false] at heq
        cases heq
        exact set_fresh_preserves hd _ _
      | true =>
        simp only [if_true] at heq
        rw [hLD _ _ _ _ heq]
        exact set_fresh_preserves hd _ _
  · intro h2 da2 heq
    simp only [loadImageExd, hd] at heq
    cases hres : exdLoop (h.allocDDict m).1.arrays keys
        (List.replicate keys.length metaDictSuffix) m false with
    | error e => rw [hres] at heq; cases heq
    | ok p =>
      obtain ⟨d2, dir⟩ := p
      rw [hres] at heq
      cases dir with
      | true =>
        simp only [if_true] at heq
        cases heq
        exact set_fresh_preserves hd _ _
      | false =>
        simp only [Bool.false_eq_true, if_false] at heq
        rw [hSC _ _ _ _ _ heq]
        exact set_fresh_preserves hd _ _
  · intro h2 da2 heq
    simp only [normalizeLabeld, hd] at heq
    cases hres : normalizeLoop value keys (h.allocDDict m).1.arrays m with
    | error e => rw [hres] at heq; cases heq
    | ok p =>
      obtain ⟨ar2, d2⟩ := p
      rw [hres] at heq
      cases heq
      have hdm : d2 = m := normalizeLoop_d_eq keys _ m ar2 d2 hres
      subst hdm
      exact ⟨set_fresh_preserves hd _ _, set_fresh_get _ _⟩

/-- The `LoadImageTensord` result on the all-paths record (via the default
loader), for the C8 witness. -/
def c8ResT : Heap × Nat :=
  match loadImageTensord ["image"] false wLoader wDecode wHeapStr 0 with
  | Except.ok hr => hr
  | Except.error _ => (⟨[], []⟩, 0)

/-- The `LoadImageExd` result on the array record, for the C8 witness. -/
def c8ResE : Heap × Nat :=
  match loadImageExd ["image"] (List.replicate 1 metaDictSuffix) wSuper wHeapArr 0
      (none : Option Unit) with
  | Except.ok hr => hr
  | Except.error _ => (⟨[], []⟩, 0)

/-- C8 witness: after each of the three concrete calls, the caller's
dictionary object still has its original bindings; for `NormalizeLabeld`
the returned record shares them. -/
theorem transforms_preserve_caller_record_witness :
    c8ResT.1.ddicts[0]? = some [("image", PyVal.str "spleen.nii")] ∧
    c8ResE.1.ddicts[0]? = some [("image", PyVal.arrRef 0)] ∧
    (c5Res.1.ddicts[0]? = some [("label", PyVal.arrRef 0)] ∧
      c5Res.1.ddicts[c5Res.2]? = some [("label", PyVal.arrRef 0)]) :=
  ⟨(@transforms_preserve_caller_record Unit ["image"] false 1 wLoader
      wDecode wSuper none wHeapStr 0 [("image", PyVal.str "spleen.nii")] rfl
      (fun hh aa hh2 aa2 e => by cases e; rfl)
      (fun hh aa rr hh2 aa2 e => by cases e; rfl)).1 c8ResT.1 c8ResT.2 (by rfl),
   (@transforms_preserve_caller_record Unit ["image"] false 1 wLoader
      wDecode wSuper none wHeapArr 0 [("image", PyVal.arrRef 0)] rfl
      (fun hh aa hh2 aa2 e => by cases e; rfl)
      (fun hh aa rr hh2 aa2 e => by cases e; rfl)).2.1 c8ResE.1 c8ResE.2 (by rfl),
   (@transforms_preserve_caller_record Unit ["label"] false 1 wLoader
      wDecode wSuper none nHeap 0 [("label", PyVal.arrRef 0)] rfl
      (fun hh aa hh2 aa2 e => by cases e; rfl)
      (fun hh aa rr hh2 aa2 e => by cases e; rfl)).2.2 c5Res.1 c5Res.2 (by rfl)⟩

/-- C9: in both loaders, processing a direct-array key first materialises its
metadata dictionary via `d.setdefault(meta_key, {})` — inserting an empty
mapping when absent, reusing the existing mapping when present — and then
populates `spatial_shape`, `original_channel_dim` and `original_affine`; so
the returned record always carries a metadata mapping under
`<key>_meta_dict`, in which any pre-existing unrelated entries survive. -/
theorem meta_key_created_and_populated
    {R : Type} (keys : List String) (amk : Bool)
    (loadImageD : Heap → Nat → Except PyErr (Heap × Nat))
    (decodeImage : String → Except PyErr NDArray)
    (superCall : Heap → Nat → Option R → Except PyErr (Heap × Nat))
    (reader : Option R)
    (h : Heap) (dataAddr : Nat) (m : DataMap)
    (x : String) (a : Nat) (arr : NDArray)
    (hd : h.ddicts[dataAddr]? = some m)
    (hx : x ∈ keys) (hnd : keys.Nodup)
    (hmkx : (x ++ "_" ++ metaDictSuffix) ∉ keys)
    (hcl : ∀ k' ∈ keys, k' ++ "_" ++ metaDictSuffix ≠ x)
    (hv : lookupKey x m = some (PyVal.arrRef a))
    (ha : h.arrays[a]? = some arr) :
    (∀ h2 da2, loadImageTensord keys amk loadImageD decodeImage h dataAddr
        = Except.ok (h2, da2) →
      ∃ d2, h2.ddicts[da2]? = some d2 ∧
        ∃ mm, lookupKey (x ++ "_" ++ metaDictSuffix) d2 = some (PyVal.mdict mm) ∧
          lookupKey "spatial_shape" mm = some (MetaVal.shape arr.shape.dropLast) ∧
          lookupKey "original_channel_dim" mm = some (MetaVal.int (-1)) ∧
          lookupKey "original_affine" mm = some MetaVal.null ∧
          (lookupKey (x ++ "_" ++ metaDictSuffix) m = none →
            ∀ f : String, f ≠ "spatial_shape" → f ≠ "original_channel_dim" →
              f ≠ "original_affine" → lookupKey f mm = none) ∧
          (∀ mm0, lookupKey (x ++ "_" ++ metaDictSuffix) m = some (PyVal.mdict mm0) →
            ∀ f : String, f ≠ "spatial_shape" → f ≠ "original_channel_dim" →
              f ≠ "original_affine" → lookupKey f mm = lookupKey f mm0)) ∧
    (∀ h2 da2, loadImageExd keys (List.replicate keys.length metaDictSuffix)
        superCall h dataAddr reader = Except.ok (h2, da2) →
      ∃ d2, h2.ddicts[da2]? = some d2 ∧
        ∃ mm, lookupKey (x ++ "_" ++ metaDictSuffix) d2 = some (PyVal.mdict mm) ∧
          lookupKey "spatial_shape" mm = some (MetaVal.shape arr.shape.dropLast) ∧
          lookupKey "original_channel_dim" mm = some (MetaVal.int (-1)) ∧
          lookupKey "original_affine" mm = some MetaVal.null ∧
          (lookupKey (x ++ "_" ++ metaDictSuffix) m = none →
            ∀ f : String, f ≠ "spatial_shape" → f ≠ "original_channel_dim" →
              f ≠ "original_affine" → lookupKey f mm = none) ∧
          (∀ mm0, lookupKey (x ++ "_" ++ metaDictSuffix) m = some (PyVal.mdict mm0) →
            ∀ f : String, f ≠ "spatial_shape" → f ≠ "original_channel_dim" →
              f ≠ "original_affine" → lookupKey f mm = lookupKey f mm0)) := by
  constructor
  · intro h2 da2 heq
    simp only [loadImageTensord, hd] at heq
    cases hres : tensordLoop decodeImage (h.allocDDict m).1.arrays keys m true with
    | error e => rw [hres] at heq; cases heq
    | ok p =>
      obtain ⟨d2', u2⟩ := p
      rw [hres] at heq
      have hu2 : u2 = false :=
        tensordLoop_nonstring_no_default keys m true d2' u2 x hx
          (fun w hw => by
            have hwv : w = PyVal.arrRef a := by
              have := hw.symm.trans hv
              simpa using this
            rw [hwv]; rfl)
          ⟨_, hv⟩ hres
      subst hu2
      simp only [Bool.false_eq_true, if_false] at heq
      cases heq
      exact ⟨d2', set_fresh_get _ _,
        tensordLoop_meta_key keys m true d2' false x a arr hx hnd hmkx hcl hv
          ha hres⟩
  · intro h2 da2 heq
    have huni : ∀ pf ∈ List.replicate keys.length metaDictSuffix,
        pf = metaDictSuffix := fun pf hpf => List.eq_of_mem_replicate hpf
    simp only [loadImageExd, hd] at heq
    cases hres : exdLoop (h.allocDDict m).1.arrays keys
        (List.replicate keys.length metaDictSuffix) m false with
    | error e => rw [hres] at heq; cases heq
    | ok p =>
      obtain ⟨d2', dir⟩ := p
      rw [hres] at heq
      have hdir : dir = true :=
        exdLoop_array_direct keys _ m false d2' dir x a hx huni hcl hv hres
      subst hdir
      simp only [if_true] at heq
      cases heq
      exact ⟨d2', set_fresh_get _ _,
        exdLoop_meta_key keys _ m false d2' true x a arr hx hnd hmkx huni hcl
          hv ha hres⟩

/-- C9 witness: both loaders on the array record, whose metadata key was
absent beforehand. -/
theorem meta_key_created_and_populated_witness :
    (∃ d2, c3ResT.1.ddicts[c3ResT.2]? = some d2 ∧
      ∃ mm, lookupKey ("image" ++ "_" ++ metaDictSuffix) d2 = some (PyVal.mdict mm) ∧
        lookupKey "spatial_shape" mm = some (MetaVal.shape wArr.shape.dropLast) ∧
        lookupKey "original_channel_dim" mm = some (MetaVal.int (-1)) ∧
        lookupKey "original_affine" mm = some MetaVal.null ∧
        (lookupKey ("image" ++ "_" ++ metaDictSuffix)
            [("image", PyVal.arrRef 0)] = none →
          ∀ f : String, f ≠ "spatial_shape" → f ≠ "original_channel_dim" →
            f ≠ "original_affine" → lookupKey f mm = none) ∧
        (∀ mm0, lookupKey ("image" ++ "_" ++ metaDictSuffix)
            [("image", PyVal.arrRef 0)] = some (PyVal.mdict mm0) →
          ∀ f : String, f ≠ "spatial_shape" → f ≠ "original_channel_dim" →
            f ≠ "original_affine" → lookupKey f mm = lookupKey f mm0)) ∧
    (∃ d2, c3ResE.1.ddicts[c3ResE.2]? = some d2 ∧
      ∃ mm, lookupKey ("image" ++ "_" ++ metaDictSuffix) d2 = some (PyVal.mdict mm) ∧
        lookupKey "spatial_shape" mm = some (MetaVal.shape wArr.shape.dropLast) ∧
        lookupKey "original_channel_dim" mm = some (MetaVal.int (-1)) ∧
        lookupKey "original_affine" mm = some MetaVal.null ∧
        (lookupKey ("image" ++ "_" ++ metaDictSuffix)
            [("image", PyVal.arrRef 0)] = none →
          ∀ f : String, f ≠ "spatial_shape" → f ≠ "original_channel_dim" →
            f ≠ "original_affine" → lookupKey f mm = none) ∧
        (∀ mm0, lookupKey ("image" ++ "_" ++ metaDictSuffix)
            [("image", PyVal.arrRef 0)] = some (PyVal.mdict mm0) →
          ∀ f : String, f ≠ "spatial_shape" → f ≠ "original_channel_dim" →
            f ≠ "original_affine" → lookupKey f mm = lookupKey f mm0)) :=
  ⟨(@meta_key_created_and_populated Unit ["image"] false wLoader wDecode
      wSuper none wHeapArr 0 [("image", PyVal.arrRef 0)] "image" 0 wArr rfl
      (by decide) (by decide) (by decide) (by decide) (by decide) rfl).1
      c3ResT.1 c3ResT.2 (by rfl),
   (@meta_key_created_and_populated Unit ["image"] false wLoader wDecode
      wSuper none wHeapArr 0 [("image", PyVal.arrRef 0)] "image" 0 wArr rfl
      (by decide) (by decide) (by decide) (by decide) (by decide) rfl).2
      c3ResE.1 c3ResE.2 (by rfl)⟩

theorem tensordLoop_skip_str {dec : String → Except PyErr NDArray}
    {arrays : List NDArray} :
    ∀ (pre ks2 : List String) (d : DataMap) (u : Bool),
    (∀ k ∈ pre, ∃ s, lookupKey k d = some (PyVal.str s) ∧
      ∃ arr, dec s = Except.ok arr) →
    tensordLoop dec arrays (pre ++ ks2) d u = tensordLoop dec arrays ks2 d u := by
  intro pre
  induction pre with
  | nil => intro ks2 d u _; rfl
  | cons key rest ih =>
    intro ks2 d u hstr
    obtain ⟨s, hs, arr, harr⟩ := hstr key (List.mem_cons_self key rest)
    simp only [List.cons_append, tensordLoop, hs, harr]
    exact ih ks2 d u (fun k hk => hstr k (List.mem_cons_of_mem key hk))

theorem normalizeLoop_skip {value : Int} :
    ∀ (pre ks2 : List String) (arrays : List NDArray) (d : DataMap),
    (∀ k ∈ pre, ∃ v a, lookupKey k d = some v ∧ valArrAddr v = some a ∧
      ∃ arrx, arrays[a]? = some arrx) →
    ∃ arrays2, normalizeLoop value (pre ++ ks2) arrays d =
      normalizeLoop value ks2 arrays2 d := by
  intro pre
  induction pre with
  | nil => intro ks2 arrays d _; exact ⟨arrays, rfl⟩
  | cons key rest ih =>
    intro ks2 arrays d hpre
    obtain ⟨v, a, hl, hva, arrx, ha⟩ := hpre key (List.mem_cons_self key rest)
    simp only [List.cons_append, normalizeLoop, hl, hva, ha,
      setKey_eq_of_lookup hl]
    refine ih ks2 (arrays.set a (mapArr value arrx)) d ?_
    intro k hk
    obtain ⟨v', a', hl', hva', arrx', ha'⟩ := hpre k (List.mem_cons_of_mem key hk)
    by_cases haa : a' = a
    · subst haa
      exact ⟨v', a', hl', hva', mapArr value arrx, list_getElem?_set_self _ ha'⟩
    · refine ⟨v', a', hl', hva', arrx', ?_⟩
      rw [List.getElem?_set_ne (fun he => haa he.symm)]
      exact ha'

/-- C10: the `allow_missing_keys` flag is stored but never consulted by
`LoadImageTensord.__call__` and `NormalizeLabeld.__call__`: when a target
key is absent from the record (and the keys before it process normally),
both calls raise `KeyError` on indexing that key, for either value of the
flag. -/
theorem allow_missing_keys_no_effect
    (pre post : List String) (x : String) (value : Int)
    (loadImageD : Heap → Nat → Except PyErr (Heap × Nat))
    (decodeImage : String → Except PyErr NDArray)
    (h : Heap) (dataAddr : Nat) (m : DataMap)
    (hd : h.ddicts[dataAddr]? = some m)
    (hmiss : lookupKey x m = none)
    (hpreT : ∀ k ∈ pre, ∃ s, lookupKey k m = some (PyVal.str s) ∧
      ∃ arr, decodeImage s = Except.ok arr)
    (hpreN : ∀ k ∈ pre, ∃ v a, lookupKey k m = some v ∧ valArrAddr v = some a ∧
      ∃ arrx, h.arrays[a]? = some arrx) :
    ∀ amk : Bool,
      loadImageTensord (pre ++ x :: post) amk loadImageD decodeImage h dataAddr =
        Except.error (PyErr.keyError x) ∧
      normalizeLabeld (pre ++ x :: post) amk value h dataAddr =
        Except.error (PyErr.keyError x) := by
  intro amk
  constructor
  · simp only [loadImageTensord, hd,
      tensordLoop_skip_str pre (x :: post) m true hpreT]
    simp only [tensordLoop, hmiss]
  · obtain ⟨arrays2, harr2⟩ :=
      @normalizeLoop_skip value pre (x :: post)
        (h.allocDDict m).1.arrays m hpreN
    simp only [normalizeLabeld, hd, harr2]
    simp only [normalizeLoop, hmiss]

/-- C10 witness: the record `{"image": "spleen.nii"}` has no "label" key, so
both transforms raise `KeyError("label")` even with
`allow_missing_keys = True`. -/
theorem allow_missing_keys_no_effect_witness :
    loadImageTensord ["label"] true wLoader wDecode wHeapStr 0 =
      Except.error (PyErr.keyError "label") ∧
    normalizeLabeld ["label"] true 1 wHeapStr 0 =
      Except.error (PyErr.keyError "label") :=
  allow_missing_keys_no_effect [] [] "label" 1 wLoader wDecode wHeapStr 0
    [("image", PyVal.str "spleen.nii")] rfl (by decide)
    (fun k hk => absurd hk (List.not_mem_nil k))
    (fun k hk => absurd hk (List.not_mem_nil k)) true

end MonaiPre
